import Mathlib

/-!
Verification development for the jsongrep JSON query engine.

The definitions below are a shallow embedding of the Rust sources:

* `src/query/common.rs` — shared label and pointer types,
* `src/query/ast.rs` — the query AST and its textual form,
* `src/query/parser.rs` — the query parser (the pest grammar file
  `src/query/grammar/query.pest` is not part of the sources, so the
  token-level grammar is modelled from the specification),
* `src/query/nfa.rs` — the Glushkov NFA construction,
* `src/query/dfa.rs` — alphabet extraction, determinization, DFA lookups and
  the JSON matcher.

Rust `usize` values are modelled as `Nat`; the constant `usize::MAX` is the
explicit constant `USIZE_MAX`.  Code that can panic (`unimplemented!()`) is
modelled with `Option`, `none` standing for the panic.  `Vec`/slices are
`List`s, `Rc<String>` is `String`, and `HashMap` with unique keys is an
association list looked up front-to-back.
-/

namespace Jsongrep

/-- `usize::MAX` on a 64-bit target. -/
def USIZE_MAX : Nat := 2 ^ 64 - 1

/-- `TransitionLabel` from `src/query/common.rs`. -/
inductive TransitionLabel where
  | field (name : String)
  | fieldWildcard
  | range (s e : Nat)
  | rangeFrom (s : Nat)
  | other
deriving DecidableEq, Repr

instance : Inhabited TransitionLabel := ⟨.other⟩

/-- `Query` from `src/query/ast.rs`.  `Range` carries optional bounds, the
exclusive end being `none` for "unbounded". -/
inductive Query where
  | field (name : String)
  | index (i : Nat)
  | range (s e : Option Nat)
  | rangeFrom (s : Nat)
  | fieldWildcard
  | arrayWildcard
  | regex (s : String)
  | optional (q : Query)
  | kleeneStar (q : Query)
  | disjunction (qs : List Query)
  | sequence (qs : List Query)
deriving Repr

instance : Inhabited Query := ⟨.sequence []⟩

/-- `PathType` from `src/query/common.rs`. -/
inductive PathType where
  | index (i : Nat)
  | field (s : String)
deriving DecidableEq, Repr

/-- The JSON value model (`serde_json_borrow::Value`): object members keep
the iteration order presented by the parser. -/
inductive Value where
  | null
  | bool (b : Bool)
  | num (n : Int)
  | str (s : String)
  | arr (vs : List Value)
  | obj (kvs : List (String × Value))
deriving Repr

/-- `JSONPointer` from `src/query/common.rs` (the borrow of the value is
modelled by storing the value itself). -/
structure JSONPointer where
  path : List PathType
  value : Value
deriving Repr

/-- `QueryNFA` from `src/query/nfa.rs`. -/
structure QueryNFA where
  num_states : Nat
  transitions : List (List (Nat × Nat))
  pos_to_label : List TransitionLabel
  start_state : Nat
  is_accepting : List Bool
  is_first : List Bool
  is_ending : List Bool
  factors : List (List Nat)
  contains_empty_word : Bool
deriving Repr

mutual
/-- `contains_empty_word` from `src/query/nfa.rs`; `none` models the
`unimplemented!()` panic on `Regex`.  `cewAll`/`cewAny` mirror the
short-circuiting `all`/`any` iterator adapters. -/
def containsEmptyWord : Query → Option Bool
  | .field _ => some false
  | .index _ => some false
  | .range _ _ => some false
  | .rangeFrom _ => some false
  | .arrayWildcard => some false
  | .fieldWildcard => some false
  | .sequence qs => cewAll qs
  | .disjunction qs => cewAny qs
  | .optional _ => some true
  | .kleeneStar _ => some true
  | .regex _ => none
termination_by structural q => q

def cewAll : List Query → Option Bool
  | [] => some true
  | q :: qs => do
    let b ← containsEmptyWord q
    if b then cewAll qs else some false
termination_by structural qs => qs

def cewAny : List Query → Option Bool
  | [] => some false
  | q :: qs => do
    let b ← containsEmptyWord q
    if b then some true else cewAny qs
termination_by structural qs => qs
end

mutual
/-- `count_subquery_positions` from `src/query/nfa.rs`. -/
def countSubqueryPositions : Query → Option Nat
  | .field _ => some 1
  | .index _ => some 1
  | .range _ _ => some 1
  | .rangeFrom _ => some 1
  | .arrayWildcard => some 1
  | .fieldWildcard => some 1
  | .sequence qs => countList qs
  | .disjunction qs => countList qs
  | .optional q => countSubqueryPositions q
  | .kleeneStar q => countSubqueryPositions q
  | .regex _ => none
termination_by structural q => q

def countList : List Query → Option Nat
  | [] => some 0
  | q :: qs => do
    let n ← countSubqueryPositions q
    let m ← countList qs
    pure (n + m)
termination_by structural qs => qs
end

mutual
/-- `linearize_query` from `src/query/nfa.rs`, accumulating `pos_to_label`.
`none` models the `unimplemented!()` panic on `Regex`.

The `Range` arm of the source reads `TransitionLabel::Range(*s, *e)`, written
against an earlier AST whose bounds were plain integers; with the optional
bounds of `src/query/ast.rs` it is completed with the same defaults that
`extract_symbols` in `src/query/dfa.rs` applies (`unwrap_or(0)` /
`unwrap_or(usize::MAX)`), which is what the engine's own range tests
exercise. -/
def linearizeQuery (acc : List TransitionLabel) : Query → Option (List TransitionLabel)
  | .field name => some (acc ++ [.field name])
  | .fieldWildcard => some (acc ++ [.fieldWildcard])
  | .index i => some (acc ++ [.range i (i + 1)])
  | .range s e => some (acc ++ [.range (s.getD 0) (e.getD USIZE_MAX)])
  | .rangeFrom s => some (acc ++ [.rangeFrom s])
  | .arrayWildcard => some (acc ++ [.range 0 USIZE_MAX])
  | .disjunction qs => linearizeList acc qs
  | .sequence qs => linearizeList acc qs
  | .kleeneStar q => linearizeQuery acc q
  | .optional q => linearizeQuery acc q
  | .regex _ => none
termination_by structural q => q

def linearizeList (acc : List TransitionLabel) : List Query → Option (List TransitionLabel)
  | [] => some acc
  | q :: qs => do
    let acc' ← linearizeQuery acc q
    linearizeList acc' qs
termination_by structural qs => qs
end

mutual
/-- `compute_first_set` from `src/query/nfa.rs`.  The mutable slice and
position are threaded explicitly; `none` models the panic raised by
`contains_empty_word`/`count_subquery_positions` on `Regex`. -/
def computeFirstSet : Query → List Bool × Nat → Option (List Bool × Nat)
  | .field _, (fs, pos) | .index _, (fs, pos) | .range _ _, (fs, pos)
  | .rangeFrom _, (fs, pos) | .arrayWildcard, (fs, pos)
  | .fieldWildcard, (fs, pos) | .regex _, (fs, pos) =>
      some (if pos < fs.length then (fs.set pos true, pos + 1) else (fs, pos))
  | .disjunction qs, st => firstDisj qs st
  | .sequence qs, st => firstSeq qs st
  | .kleeneStar q, st => computeFirstSet q st
  | .optional q, st => computeFirstSet q st
termination_by structural q _ => q

/-- The `Disjunction` loop of `compute_first_set`: each branch starts at the
saved position and the position is then advanced by the branch length. -/
def firstDisj : List Query → List Bool × Nat → Option (List Bool × Nat)
  | [], st => some st
  | q :: qs, (fs, pos) => do
    let branchLen ← countSubqueryPositions q
    let (fs', _) ← computeFirstSet q (fs, pos)
    firstDisj qs (fs', pos + branchLen)
termination_by structural qs _ => qs

/-- The `Sequence` loop of `compute_first_set`: stops after the first
non-nullable child (and does not advance the position past the remaining
children). -/
def firstSeq : List Query → List Bool × Nat → Option (List Bool × Nat)
  | [], st => some st
  | q :: qs, st => do
    let st' ← computeFirstSet q st
    let b ← containsEmptyWord q
    if b then firstSeq qs st' else some st'
termination_by structural qs _ => qs
end

mutual
/-- `compute_last_set` from `src/query/nfa.rs`.  The `Sequence` arm first
computes every child's position length (panicking on `Regex` exactly like
the source's `map(count_subquery_positions)`), then runs the reversed child
loop `lastSeq`. -/
def computeLastSet : Query → List Bool × Nat → Option (List Bool × Nat)
  | .field _, (ls, pos) | .index _, (ls, pos) | .range _ _, (ls, pos)
  | .rangeFrom _, (ls, pos) | .arrayWildcard, (ls, pos)
  | .fieldWildcard, (ls, pos) | .regex _, (ls, pos) =>
      some (if pos < ls.length then (ls.set pos true, pos + 1) else (ls, pos))
  | .disjunction qs, st => lastDisj qs st
  | .sequence qs, (ls, pos) => do
    let lens ← qs.mapM countSubqueryPositions
    let (ls', _) ← lastSeq qs pos ls
    pure (ls', pos + lens.sum)
  | .kleeneStar q, st => computeLastSet q st
  | .optional q, st => computeLastSet q st
termination_by structural q _ => q

/-- The `Disjunction` loop of `compute_last_set`. -/
def lastDisj : List Query → List Bool × Nat → Option (List Bool × Nat)
  | [], st => some st
  | q :: qs, (ls, pos) => do
    let branchLen ← countSubqueryPositions q
    let (ls', _) ← computeLastSet q (ls, pos)
    lastDisj qs (ls', pos + branchLen)
termination_by structural qs _ => qs

/-- The reversed `Sequence` loop of `compute_last_set`: the source iterates
`queries.iter().enumerate().rev()`, marking each child at its own
recomputed start offset and breaking after the first non-nullable child.
Here the loop is expressed by structural recursion: the right-hand suffix is
processed first (that is the source's iteration order) and returns a flag
saying whether the loop is still running (no break yet); the head child is
then processed only if the flag is still set, and clears it when the child
is not nullable.  `start` is the offset of the head child. -/
def lastSeq : List Query → Nat → List Bool → Option (List Bool × Bool)
  | [], _, ls => some (ls, true)
  | q :: qs, start, ls => do
    let len ← countSubqueryPositions q
    let (ls1, continuing) ← lastSeq qs (start + len) ls
    if continuing then do
      let (ls2, _) ← computeLastSet q (ls1, start)
      let b ← containsEmptyWord q
      pure (ls2, b)
    else pure (ls1, false)
termination_by structural qs _ _ => qs
end

/-- `factors[i].push(x)` on the follow-set table. -/
def pushAt (fac : List (List Nat)) (i x : Nat) : List (List Nat) :=
  fac.set i (fac.getD i [] ++ [x])

/-- The boundary-pair double loop shared by the `Sequence` and `KleeneStar`
arms of `compute_follows_set`: for `li` in `[ls, le)` with `left_last[li]`,
push every `ri` in `[rs, re)` with `right_first[ri]` onto `factors[li]`. -/
def pushFollowPairs (leftLast rightFirst : List Bool) (ls le rs re : Nat)
    (fac : List (List Nat)) : List (List Nat) :=
  (List.range' ls (le - ls)).foldl
    (fun fac1 li =>
      if leftLast.getD li false then
        (List.range' rs (re - rs)).foldl
          (fun fac2 ri => if rightFirst.getD ri false then pushAt fac2 li ri else fac2)
          fac1
      else fac1)
    fac

/-- The short-circuiting `(i+1..j).all(|k| contains_empty_word(&queries[k]))`
check of `compute_follows_set`. -/
def cewRange (qs : List Query) : List Nat → Option Bool
  | [] => some true
  | k :: ks => do
    let b ← containsEmptyWord (qs.getD k default)
    if b then cewRange qs ks else some false

/-- The inner `j` loop of the `Sequence` arm of `compute_follows_set`,
breaking after the first non-nullable right-hand child. -/
def seqBoundaryInner (qs : List Query) (ranges : List (Nat × Nat)) (i : Nat)
    (leftLast : List Bool) (ls le : Nat) :
    List Nat → List (List Nat) → Option (List (List Nat))
  | [], fac => some fac
  | j :: rest, fac => do
    let canSkip ← cewRange qs (List.range' (i + 1) (j - (i + 1)))
    let fac' ←
      if canSkip then do
        let rightQuery := qs.getD j default
        let (rs, re) := ranges.getD j (0, 0)
        let (rightFirst, _) ← computeFirstSet rightQuery
          (List.replicate fac.length false, rs)
        pure (pushFollowPairs leftLast rightFirst ls le rs re fac)
      else pure fac
    let bj ← containsEmptyWord (qs.getD j default)
    if bj then seqBoundaryInner qs ranges i leftLast ls le rest fac' else some fac'

/-- The outer `i` loop of the boundary pairing `D(e)P(f)` in the `Sequence`
arm of `compute_follows_set`. -/
def seqBoundaryOuter (qs : List Query) (ranges : List (Nat × Nat))
    (fac0 : List (List Nat)) : Option (List (List Nat)) :=
  (List.range qs.length).foldlM
    (fun fac i => do
      let leftQuery := qs.getD i default
      let (ls, le) := ranges.getD i (0, 0)
      let (leftLast, _) ← computeLastSet leftQuery
        (List.replicate fac.length false, ls)
      seqBoundaryInner qs ranges i leftLast ls le
        (List.range' (i + 1) (qs.length - (i + 1))) fac)
    fac0

mutual
/-- `compute_follows_set` from `src/query/nfa.rs`. -/
def computeFollowsSet : Query → List (List Nat) × Nat → Option (List (List Nat) × Nat)
  | .field _, (fac, pos) | .index _, (fac, pos) | .range _ _, (fac, pos)
  | .rangeFrom _, (fac, pos) | .arrayWildcard, (fac, pos)
  | .fieldWildcard, (fac, pos) | .regex _, (fac, pos) =>
      some (fac, pos + 1)
  | .disjunction qs, st => followsDisj qs st
  | .sequence qs, (fac, pos) => do
    let (fac1, pos1, ranges) ← followsChildren qs (fac, pos, [])
    let fac2 ← seqBoundaryOuter qs ranges fac1
    pure (fac2, pos1)
  | .kleeneStar q, (fac, pos) => do
    let startPos := pos
    let qLen ← countSubqueryPositions q
    let (fac1, pos1) ← computeFollowsSet q (fac, pos)
    let (lastSet, _) ← computeLastSet q (List.replicate fac1.length false, startPos)
    let (firstSet, _) ← computeFirstSet q (List.replicate fac1.length false, startPos)
    let fac2 := pushFollowPairs lastSet firstSet startPos (startPos + qLen)
      startPos (startPos + qLen) fac1
    pure (fac2, pos1)
  | .optional q, st => computeFollowsSet q st
termination_by structural q _ => q

/-- The `Disjunction` loop of `compute_follows_set`. -/
def followsDisj : List Query → List (List Nat) × Nat → Option (List (List Nat) × Nat)
  | [], st => some st
  | q :: qs, st => do
    let st' ← computeFollowsSet q st
    followsDisj qs st'
termination_by structural qs _ => qs

/-- The first `Sequence` loop of `compute_follows_set`: computes each
child's internal follow pairs and records its `(start, end)` position
range. -/
def followsChildren : List Query → List (List Nat) × Nat × List (Nat × Nat) →
    Option (List (List Nat) × Nat × List (Nat × Nat))
  | [], st => some st
  | q :: qs, (fac, pos, rngs) => do
    let subLen ← countSubqueryPositions q
    let (fac', pos') ← computeFollowsSet q (fac, pos)
    followsChildren qs (fac', pos', rngs ++ [(pos, pos + subLen)])
termination_by structural qs _ => qs
end

/-- The transition-list `transitions[i].push(x)` helper. -/
def pushAtTrans (t : List (List (Nat × Nat))) (i : Nat) (x : Nat × Nat) :
    List (List (Nat × Nat)) :=
  t.set i (t.getD i [] ++ [x])

/-- `QueryNFA::construct_nfa` from `src/query/nfa.rs`. -/
def constructNFA (t : QueryNFA) : QueryNFA :=
  let acc := if t.contains_empty_word then t.is_accepting.set 0 true else t.is_accepting
  let trans := t.is_first.enum.foldl
    (fun tr (pb : Nat × Bool) => if pb.2 then pushAtTrans tr 0 (pb.1, pb.1 + 1) else tr)
    t.transitions
  let acc := t.is_ending.enum.foldl
    (fun a (pb : Nat × Bool) => if pb.2 then a.set (pb.1 + 1) true else a) acc
  let trans := t.factors.enum.foldl
    (fun tr (pf : Nat × List Nat) =>
      pf.2.foldl (fun tr2 follower => pushAtTrans tr2 (pf.1 + 1) (follower, follower + 1)) tr)
    trans
  { t with transitions := trans, is_accepting := acc }

/-- `QueryNFA::from_query` from `src/query/nfa.rs`; `none` models the
`unimplemented!()` panic on `Regex`. -/
def QueryNFA.fromQuery (q : Query) : Option QueryNFA := do
  let labels ← linearizeQuery [] q
  let alphabetSize := labels.length
  if alphabetSize = 0 then
    pure { num_states := 1, transitions := [], pos_to_label := [], start_state := 0,
           is_accepting := [true], is_first := [], is_ending := [], factors := [],
           contains_empty_word := true }
  else
    let cew ← containsEmptyWord q
    let (fs, _) ← computeFirstSet q (List.replicate alphabetSize false, 0)
    let (ls, _) ← computeLastSet q (List.replicate alphabetSize false, 0)
    let (fac, _) ← computeFollowsSet q (List.replicate alphabetSize [], 0)
    let temp : QueryNFA :=
      { num_states := 1 + alphabetSize,
        transitions := List.replicate (1 + alphabetSize) [],
        pos_to_label := labels,
        start_state := 0,
        is_accepting := List.replicate (1 + alphabetSize) false,
        is_first := fs, is_ending := ls, factors := fac,
        contains_empty_word := cew }
    pure (constructNFA temp)

/-- `QueryDFA` from `src/query/dfa.rs`. -/
structure QueryDFA where
  num_states : Nat
  start_state : Nat
  is_accepting : List Bool
  transitions : List (List (Option Nat))
  alphabet : List TransitionLabel
  key_to_key_id : List (String × Nat)
  range_to_range_id : List ((Nat × Nat) × Nat)
deriving Repr

/-- `QueryDFA::is_accepting_state`. -/
def QueryDFA.isAcceptingState (d : QueryDFA) (state : Nat) : Bool :=
  state < d.num_states && d.is_accepting.getD state false

/-- `QueryDFA::get_field_symbol_id`: look the field up in `key_to_key_id`,
defaulting to the `Other` symbol `0`. -/
def QueryDFA.getFieldSymbolId (d : QueryDFA) (f : String) : Nat :=
  match d.key_to_key_id.lookup f with
  | some id => id
  | none => 0

def binarySearchGo {α : Type} [Inhabited α] (v : List α) (cmp : α → Ordering) :
    Nat → Nat → Nat → Option Nat
  | 0, _, _ => none
  | fuel + 1, lo, hi =>
    if lo < hi then
      let mid := lo + (hi - lo) / 2
      match cmp (v.getD mid default) with
      | .lt => binarySearchGo v cmp fuel (mid + 1) hi
      | .gt => binarySearchGo v cmp fuel lo mid
      | .eq => some mid
    else none

/-- `slice::binary_search_by` (from the Rust standard library): classic
half-interval search returning the position of an element on which the
comparator answers `Equal`, `none` otherwise.  The fuel argument is a
modelling artifact; `v.length + 1` always suffices since the interval
shrinks at every step. -/
def binarySearchBy {α : Type} [Inhabited α] (v : List α) (cmp : α → Ordering) : Option Nat :=
  binarySearchGo v cmp (v.length + 1) 0 v.length

/-- `QueryDFA::get_index_symbol_id`: binary search over the sorted disjoint
range entries. -/
def QueryDFA.getIndexSymbolId (d : QueryDFA) (index : Nat) : Option Nat :=
  match binarySearchBy d.range_to_range_id
      (fun e =>
        if index < e.1.1 then .gt
        else if index ≥ e.1.2 then .lt
        else .eq) with
  | some i => some (d.range_to_range_id.getD i ((0, 0), 0)).2
  | none => none

/-- `QueryDFA::transition`. -/
def QueryDFA.transition (d : QueryDFA) (state symbolId : Nat) : Option Nat :=
  if state < d.num_states ∧ symbolId < d.alphabet.length then
    (d.transitions.getD state []).getD symbolId none
  else none

/-- `QueryDFA::index_in_range`. -/
def QueryDFA.indexInRange (_d : QueryDFA) (index start stop : Nat) : Bool :=
  start ≤ index && index < stop

/-- `DFABuilder` from `src/query/dfa.rs`. -/
structure DFABuilder where
  alphabet : List TransitionLabel
  key_to_key_id : List (String × Nat)
  collected_ranges : List (Nat × Nat)
  range_to_range_id : List ((Nat × Nat) × Nat)
deriving Repr

/-- `DFABuilder::new`: the alphabet starts with only the `Other` symbol. -/
def DFABuilder.new : DFABuilder :=
  { alphabet := [.other], key_to_key_id := [], collected_ranges := [],
    range_to_range_id := [] }

mutual
/-- `DFABuilder::extract_symbols` from `src/query/dfa.rs`; `none` models the
`unimplemented!()` panic on `Regex`. -/
def extractSymbols (b : DFABuilder) : Query → Option DFABuilder
  | .field name =>
    match b.key_to_key_id.lookup name with
    | some _ => some b
    | none =>
      some { b with
        key_to_key_id := b.key_to_key_id ++ [(name, b.alphabet.length)],
        alphabet := b.alphabet ++ [.field name] }
  | .fieldWildcard => some b
  | .index i => some { b with collected_ranges := b.collected_ranges ++ [(i, i + 1)] }
  | .range s e =>
    some { b with collected_ranges := b.collected_ranges ++ [(s.getD 0, e.getD USIZE_MAX)] }
  | .rangeFrom s => some { b with collected_ranges := b.collected_ranges ++ [(s, USIZE_MAX)] }
  | .arrayWildcard => some { b with collected_ranges := b.collected_ranges ++ [(0, USIZE_MAX)] }
  | .disjunction qs => extractSymbolsList b qs
  | .sequence qs => extractSymbolsList b qs
  | .kleeneStar q => extractSymbols b q
  | .optional q => extractSymbols b q
  | .regex _ => none
termination_by structural q => q

/-- The child loop of `extract_symbols`. -/
def extractSymbolsList (b : DFABuilder) : List Query → Option DFABuilder
  | [] => some b
  | q :: qs => do
    let b' ← extractSymbols b q
    extractSymbolsList b' qs
termination_by structural qs => qs
end

/-- `Vec::dedup` (remove consecutive duplicates), split into a head and a
previous-element loop so that the recursion is structural. -/
def dedupAdjAfter (prev : Nat) : List Nat → List Nat
  | [] => []
  | y :: rest => if prev = y then dedupAdjAfter prev rest else y :: dedupAdjAfter y rest

/-- `Vec::dedup`: remove consecutive duplicates. -/
def dedupAdj : List Nat → List Nat
  | [] => []
  | x :: rest => x :: dedupAdjAfter x rest

/-- `DFABuilder::finalize_ranges` from `src/query/dfa.rs`: collect the
endpoints of the valid collected ranges, sort and deduplicate them, emit the
consecutive half-open intervals as fresh `Range` alphabet symbols, and keep
`range_to_range_id` sorted by interval start.  Rust's `sort_unstable` /
`sort_by` are modelled by `List.insertionSort` (a stable sort; on the fully
ordered keys used here any correct sort produces the same list). -/
def finalizeRanges (b : DFABuilder) : DFABuilder :=
  let points := b.collected_ranges.foldl
    (fun acc se => if se.1 < se.2 then acc ++ [se.1, se.2] else acc) []
  let points := dedupAdj (points.insertionSort (· ≤ ·))
  let disjointRanges := (points.zip points.tail).filter (fun p => p.1 < p.2)
  let assigned := disjointRanges.foldl
    (fun (acc : List TransitionLabel × List ((Nat × Nat) × Nat)) r =>
      (acc.1 ++ [.range r.1 r.2], acc.2 ++ [(r, acc.1.length)]))
    (b.alphabet, b.range_to_range_id)
  { b with
    alphabet := assigned.1,
    range_to_range_id := assigned.2.insertionSort (fun a c => a.1.1 ≤ c.1.1) }

/-- The label-coverage test of `DFABuilder::determinize_nfa`: does the NFA
transition label match or cover the DFA alphabet symbol? -/
def coversLabel (nfaLabel dfaSymbol : TransitionLabel) : Bool :=
  match nfaLabel, dfaSymbol with
  | .field f, .field g => f == g
  | .fieldWildcard, .other => true
  | .other, .other => true
  | .fieldWildcard, .field _ => true
  | .range a b, .range x y => (a == 0 && b == USIZE_MAX) || (a ≤ x && y ≤ b)
  | .rangeFrom a, .range x _ => a ≤ x
  | _, _ => false

/-- Whether an NFA-state set (bit vector) contains an accepting NFA state. -/
def hasAcceptingState (nfa : QueryNFA) (s : List Bool) : Bool :=
  s.enum.any (fun ib => ib.2 && nfa.is_accepting.getD ib.1 false)

/-- The inner loop of `determinize_nfa` computing, for one DFA symbol, the
set of NFA states reachable from the current set via a covering label. -/
def nextNFAStates (nfa : QueryNFA) (cur : List Bool) (dfaSymbol : TransitionLabel) :
    List Bool :=
  (List.range nfa.num_states).foldl
    (fun acc p =>
      if cur.getD p false then
        (nfa.transitions.getD p []).foldl
          (fun acc2 e =>
            if coversLabel (nfa.pos_to_label.getD e.1 .other) dfaSymbol then
              acc2.set e.2 true
            else acc2)
          acc
      else acc)
    (List.replicate nfa.num_states false)

/-- The mutable state of the subset-construction worklist loop of
`determinize_nfa`.  The `HashMap` from NFA-state sets to DFA state indices
is kept in sync with `dfa_states` by the source, so lookups are modelled as
`findIdx?` on `dfa_states`. -/
structure DetState where
  queue : List (List Bool)
  dfa_states : List (List Bool)
  transitions : List (List (Option Nat))
  is_accepting : List Bool
deriving Repr

/-- `transitions[i][j] = some v`. -/
def setTrans (t : List (List (Option Nat))) (i j v : Nat) : List (List (Option Nat)) :=
  t.set i ((t.getD i []).set j (some v))

/-- Processing of one popped NFA-state set in `determinize_nfa`: for each
DFA symbol compute the reachable set, intern it (allocating a fresh DFA
state if new) and record the transition. -/
def processState (alphabet : List TransitionLabel) (nfa : QueryNFA)
    (st : DetState) (currentSet : List Bool) : DetState :=
  let d := (st.dfa_states.findIdx? (· == currentSet)).getD 0
  alphabet.enum.foldl
    (fun st1 symPair =>
      let next := nextNFAStates nfa currentSet symPair.2
      if next.any id then
        match st1.dfa_states.findIdx? (· == next) with
        | some j => { st1 with transitions := setTrans st1.transitions d symPair.1 j }
        | none =>
          let j := st1.dfa_states.length
          { queue := st1.queue ++ [next],
            dfa_states := st1.dfa_states ++ [next],
            transitions :=
              setTrans st1.transitions d symPair.1 j ++
                [List.replicate alphabet.length none],
            is_accepting := st1.is_accepting ++ [hasAcceptingState nfa next] }
      else st1)
    st

/-- The worklist loop of `determinize_nfa`.  The Rust loop runs until the
queue is empty; the fuel argument is a modelling artifact and `detFuel`
below always suffices (there are at most `2 ^ num_states` distinct DFA
states, each entering the queue once). -/
def detLoop (alphabet : List TransitionLabel) (nfa : QueryNFA) :
    Nat → DetState → DetState
  | 0, st => st
  | fuel + 1, st =>
    match st.queue with
    | [] => st
    | s :: rest =>
      detLoop alphabet nfa fuel (processState alphabet nfa { st with queue := rest } s)

/-- The initial worklist state of `determinize_nfa`: the start set `{0}`. -/
def detInit (alphabet : List TransitionLabel) (nfa : QueryNFA) : DetState :=
  let startSet := (List.replicate nfa.num_states false).set nfa.start_state true
  { queue := [startSet],
    dfa_states := [startSet],
    transitions := [List.replicate alphabet.length none],
    is_accepting := [nfa.is_accepting.getD nfa.start_state false] }

/-- Fuel sufficient for the worklist loop (proved below). -/
def detFuel (nfa : QueryNFA) : Nat := 2 * 2 ^ nfa.num_states + 1

/-- The final worklist state of the subset construction. -/
def determinizeState (alphabet : List TransitionLabel) (nfa : QueryNFA) : DetState :=
  detLoop alphabet nfa (detFuel nfa) (detInit alphabet nfa)

/-- `DFABuilder::determinize_nfa` from `src/query/dfa.rs`. -/
def determinizeNFA (b : DFABuilder) (nfa : QueryNFA) : QueryDFA :=
  let st := determinizeState b.alphabet nfa
  { num_states := st.dfa_states.length,
    start_state := 0,
    is_accepting := st.is_accepting,
    transitions := st.transitions,
    alphabet := b.alphabet,
    key_to_key_id := b.key_to_key_id,
    range_to_range_id := b.range_to_range_id }

/-- The non-empty-query branch of `DFABuilder::build_dfa`: extract the
alphabet, disjointify the ranges, build the Glushkov NFA, determinize. -/
def buildDFAGeneral (q : Query) : Option QueryDFA := do
  let b ← extractSymbols DFABuilder.new q
  let b := finalizeRanges b
  let nfa ← QueryNFA.fromQuery q
  pure (determinizeNFA b nfa)

/-- `DFABuilder::build_dfa` (and `QueryDFA::from_query`) from
`src/query/dfa.rs`; `none` models the `unimplemented!()` panic on `Regex`.
The empty query `Sequence([])` is special-cased to the one-state identity
DFA with an empty alphabet. -/
def buildDFA : Query → Option QueryDFA
  | .sequence [] =>
    some { num_states := 1, start_state := 0, is_accepting := [true],
           transitions := [], alphabet := [], key_to_key_id := [],
           range_to_range_id := [] }
  | q => buildDFAGeneral q

mutual
/-- `DFAQueryEngine::traverse_json` from `src/query/dfa.rs`: depth-first
walk of the JSON value, emitting a pointer whenever the current DFA state is
accepting, and descending only along live transitions.  The result list is
the `results` vector in push order; the member/element loops are the
structural helpers `traverseObj`/`traverseArr`. -/
def traverseJson (dfa : QueryDFA) : Nat → List PathType → Value → List JSONPointer
  | state, path, v =>
    (if dfa.isAcceptingState state then [⟨path, v⟩] else []) ++
    match v with
    | .obj kvs => traverseObj dfa state path kvs
    | .arr vs => traverseArr dfa state path 0 vs
    | .null => []
    | .bool _ => []
    | .num _ => []
    | .str _ => []
termination_by structural _ _ v => v

/-- The object-member loop of `traverse_json`. -/
def traverseObj (dfa : QueryDFA) (state : Nat) (path : List PathType) :
    List (String × Value) → List JSONPointer
  | [] => []
  | (key, val) :: rest =>
    (match dfa.transition state (dfa.getFieldSymbolId key) with
     | some next => traverseJson dfa next (path ++ [.field key]) val
     | none => []) ++ traverseObj dfa state path rest
termination_by structural kvs => kvs

/-- The array-element loop of `traverse_json` (`idx` is the running
enumeration index). -/
def traverseArr (dfa : QueryDFA) (state : Nat) (path : List PathType) (idx : Nat) :
    List Value → List JSONPointer
  | [] => []
  | val :: rest =>
    (match dfa.getIndexSymbolId idx with
     | some symbolId =>
       match dfa.transition state symbolId with
       | some next => traverseJson dfa next (path ++ [.index idx]) val
       | none => []
     | none => []) ++ traverseArr dfa state path (idx + 1) rest
termination_by structural vs => vs
end

/-- `DFAQueryEngine::find` (the `QueryEngine` impl in `src/query/dfa.rs`):
compile the query and walk the document; `none` models the compilation
panic on `Regex`. -/
def find (json : Value) (q : Query) : Option (List JSONPointer) :=
  (buildDFA q).map (fun dfa => traverseJson dfa dfa.start_state [] json)

/-! ### Specification-side semantics

The following definitions are not translated from the Rust sources; they
formalise the specification's denotation of a query: `langMem q w` decides
whether the path word `w` belongs to `L(q)`, and `specFind` lists, in
depth-first document order, exactly the nodes whose root-to-node path spells
a word of `L(q)`. -/

/-- All decompositions `w = w₁ ++ w₂`. -/
def splits (w : List PathType) : List (List PathType × List PathType) :=
  (List.range (w.length + 1)).map (fun i => (w.take i, w.drop i))

theorem splits_char {w : List PathType} {p : List PathType × List PathType}
    (hp : p ∈ splits w) : ∃ i, i ≤ w.length ∧ p = (w.take i, w.drop i) := by
  simp only [splits, List.mem_map, List.mem_range] at hp
  obtain ⟨i, hi, heq⟩ := hp
  exact ⟨i, by omega, heq.symm⟩

theorem splits_fst_length_le {w : List PathType} {p : List PathType × List PathType}
    (hp : p ∈ splits w) : p.1.length ≤ w.length := by
  obtain ⟨i, _, rfl⟩ := splits_char hp
  simp

theorem splits_snd_length_le {w : List PathType} {p : List PathType × List PathType}
    (hp : p ∈ splits w) : p.2.length ≤ w.length := by
  obtain ⟨i, _, rfl⟩ := splits_char hp
  simp

theorem splits_snd_length_lt {w : List PathType} {p : List PathType × List PathType}
    (hp : p ∈ splits w) (hne : p.1.isEmpty = false) : p.2.length < w.length := by
  obtain ⟨i, hi, rfl⟩ := splits_char hp
  have hne' : w.take i ≠ [] := by
    intro h0
    rw [h0] at hne
    simp at hne
  have h2 : (w.take i).length ≠ 0 := fun h0 => hne' (List.eq_nil_of_length_eq_zero h0)
  have h1 : (w.take i).length = min i w.length := by simp
  simp only [List.length_drop]
  omega

/-- Membership of a path word in the language denoted by a query, following
the specification's table for the atoms (`Range` bounds default to `0` and
"unbounded"), with the usual regular-language semantics for the
combinators.  `Regex` denotes the empty language (it is reserved). -/
def langMem : Query → List PathType → Bool
  | .field s, w => w == [.field s]
  | .index i, w => w == [.index i]
  | .range lo hi, w =>
    match w with
    | [.index i] =>
      decide (lo.getD 0 ≤ i) &&
        (match hi with
         | some h => decide (i < h)
         | none => true)
    | _ => false
  | .rangeFrom lo, w =>
    match w with
    | [.index i] => decide (lo ≤ i)
    | _ => false
  | .fieldWildcard, w =>
    match w with
    | [.field _] => true
    | _ => false
  | .arrayWildcard, w =>
    match w with
    | [.index _] => true
    | _ => false
  | .regex _, _ => false
  | .optional q, w => w.isEmpty || langMem q w
  | .kleeneStar q, w =>
    w.isEmpty ||
      (splits w).attach.any (fun sp =>
        if sp.val.1.isEmpty then false
        else langMem q sp.val.1 && langMem (.kleeneStar q) sp.val.2)
  | .disjunction qs, w => qs.attach.any (fun q => langMem q.val w)
  | .sequence [], w => w.isEmpty
  | .sequence (q :: qs), w =>
    (splits w).attach.any (fun sp =>
      langMem q sp.val.1 && langMem (.sequence qs) sp.val.2)
termination_by q w => (w.length, sizeOf q)
decreasing_by
  · exact Prod.Lex.right _ (by simp +arith)
  · have := splits_fst_length_le sp.property
    rcases Nat.lt_or_ge sp.val.1.length w.length with h | h
    · exact Prod.Lex.left _ _ h
    · have : sp.val.1.length = w.length := by omega
      rw [this]
      exact Prod.Lex.right _ (by simp +arith)
  · rename_i hemp
    have := splits_snd_length_lt sp.property (by revert hemp; cases sp.val.1.isEmpty <;> simp)
    exact Prod.Lex.left _ _ this
  · have := List.sizeOf_lt_of_mem q.property
    exact Prod.Lex.right _ (by simp +arith; omega)
  · have := splits_fst_length_le sp.property
    rcases Nat.lt_or_ge sp.val.1.length w.length with h | h
    · exact Prod.Lex.left _ _ h
    · have : sp.val.1.length = w.length := by omega
      rw [this]
      exact Prod.Lex.right _ (by simp +arith)
  · have := splits_snd_length_le sp.property
    rcases Nat.lt_or_ge sp.val.2.length w.length with h | h
    · exact Prod.Lex.left _ _ h
    · have : sp.val.2.length = w.length := by omega
      rw [this]
      exact Prod.Lex.right _ (by simp +arith)

mutual
/-- The specification's matcher: collect, in depth-first document order, all
`(path, value)` records whose path word lies in `L(q)`. -/
def specFindGo (q : Query) : List PathType → Value → List JSONPointer
  | path, v =>
    (if langMem q path then [⟨path, v⟩] else []) ++
    match v with
    | .obj kvs => specFindObj q path kvs
    | .arr vs => specFindArr q path 0 vs
    | .null => []
    | .bool _ => []
    | .num _ => []
    | .str _ => []
termination_by structural _ v => v

/-- Object-member recursion of the specification's matcher. -/
def specFindObj (q : Query) (path : List PathType) :
    List (String × Value) → List JSONPointer
  | [] => []
  | (key, val) :: rest =>
    specFindGo q (path ++ [.field key]) val ++ specFindObj q path rest
termination_by structural kvs => kvs

/-- Array-element recursion of the specification's matcher. -/
def specFindArr (q : Query) (path : List PathType) (idx : Nat) :
    List Value → List JSONPointer
  | [] => []
  | val :: rest =>
    specFindGo q (path ++ [.index idx]) val ++ specFindArr q path (idx + 1) rest
termination_by structural vs => vs
end

/-- The specification's `find`. -/
def specFind (q : Query) (json : Value) : List JSONPointer :=
  specFindGo q [] json

mutual
/-- The field names collected from a query by `extract_symbols` (the names
inserted into `key_to_key_id`). -/
def collectFields : Query → List String
  | .field s => [s]
  | .index _ => []
  | .range _ _ => []
  | .rangeFrom _ => []
  | .fieldWildcard => []
  | .arrayWildcard => []
  | .regex _ => []
  | .optional q => collectFields q
  | .kleeneStar q => collectFields q
  | .disjunction qs => collectFieldsList qs
  | .sequence qs => collectFieldsList qs

def collectFieldsList : List Query → List String
  | [] => []
  | q :: qs => collectFields q ++ collectFieldsList qs
end

mutual
/-- The raw integer intervals that `extract_symbols` collects from the
index-flavoured atoms of a query (`Index(i) → [i, i+1)`,
`Range → [lo∨0, hi∨MAX)`, `RangeFrom(lo) → [lo, MAX)`,
`ArrayWildcard → [0, MAX)`). -/
def collectRanges : Query → List (Nat × Nat)
  | .field _ => []
  | .index i => [(i, i + 1)]
  | .range s e => [(s.getD 0, e.getD USIZE_MAX)]
  | .rangeFrom s => [(s, USIZE_MAX)]
  | .fieldWildcard => []
  | .arrayWildcard => [(0, USIZE_MAX)]
  | .regex _ => []
  | .optional q => collectRanges q
  | .kleeneStar q => collectRanges q
  | .disjunction qs => collectRangesList qs
  | .sequence qs => collectRangesList qs

def collectRangesList : List Query → List (Nat × Nat)
  | [] => []
  | q :: qs => collectRanges q ++ collectRangesList qs
end

mutual
/-- Whether the AST contains a `Regex` node anywhere. -/
def containsRegex : Query → Bool
  | .field _ => false
  | .index _ => false
  | .range _ _ => false
  | .rangeFrom _ => false
  | .fieldWildcard => false
  | .arrayWildcard => false
  | .regex _ => true
  | .optional q => containsRegex q
  | .kleeneStar q => containsRegex q
  | .disjunction qs => containsRegexList qs
  | .sequence qs => containsRegexList qs

def containsRegexList : List Query → Bool
  | [] => false
  | q :: qs => containsRegex q || containsRegexList qs
end

/-- The endpoints of the valid (nonempty) collected intervals of a query;
these are exactly the integers the disjointification of
`finalize_ranges` splits at. -/
def validEndpoints (q : Query) : List Nat :=
  ((collectRanges q).filter (fun r => r.1 < r.2)).flatMap (fun r => [r.1, r.2])

/-! ### Acceptance of symbol words (for the determinization claim) -/

/-- Run the DFA transition table on a word of alphabet symbol indices. -/
def dfaRun (d : QueryDFA) : Nat → List Nat → Option Nat
  | s, [] => some s
  | s, σ :: w =>
    match d.transition s σ with
    | some s' => dfaRun d s' w
    | none => none

/-- The DFA accepts a word iff the run survives and lands on an accepting
state. -/
def dfaAccepts (d : QueryDFA) (w : List Nat) : Bool :=
  match dfaRun d d.start_state w with
  | some s => d.isAcceptingState s
  | none => false

/-- A run of the NFA on a word of DFA alphabet symbol indices under the
label-coverage rules: each step follows an NFA edge whose label covers the
current DFA symbol. -/
inductive NFAPath (alphabet : List TransitionLabel) (nfa : QueryNFA) :
    Nat → List Nat → Nat → Prop
  | nil (p : Nat) : NFAPath alphabet nfa p [] p
  | cons {p r : Nat} {σ : Nat} {w : List Nat} (e : Nat × Nat)
      (he : e ∈ nfa.transitions.getD p [])
      (hcov : coversLabel (nfa.pos_to_label.getD e.1 .other) (alphabet.getD σ .other) = true)
      (hrest : NFAPath alphabet nfa e.2 w r) :
      NFAPath alphabet nfa p (σ :: w) r

/-- The NFA has an accepting run on the word under label coverage. -/
def nfaAcceptsCover (alphabet : List TransitionLabel) (nfa : QueryNFA)
    (w : List Nat) : Prop :=
  ∃ qf, NFAPath alphabet nfa nfa.start_state w qf ∧
    nfa.is_accepting.getD qf false = true

/-- Well-formedness facts about a `QueryNFA` (guaranteed by
`QueryNFA::from_query`): the start state lies inside the state space and
every edge lands inside the state space.  Both conditions are bounded, so
they are decidable on a concrete NFA. -/
structure NFAWf (nfa : QueryNFA) : Prop where
  start_lt : nfa.start_state < nfa.num_states
  edges_wf : ∀ p, p < nfa.transitions.length →
    ∀ e ∈ nfa.transitions.getD p [], e.2 < nfa.num_states

/-- The start NFA-state set `{start_state}` of the subset construction. -/
def startSetOf (nfa : QueryNFA) : List Bool :=
  (List.replicate nfa.num_states false).set nfa.start_state true

/-- Iterated `nextNFAStates` along a word of alphabet symbol indices. -/
def iterNext (alphabet : List TransitionLabel) (nfa : QueryNFA) :
    List Bool → List Nat → List Bool
  | cur, [] => cur
  | cur, σ :: w =>
    iterNext alphabet nfa (nextNFAStates nfa cur (alphabet.getD σ .other)) w

/-- Correctness of one entry of a subset-construction transition row: the
entry for symbol `σ` points at the interned successor set when that set is
nonempty, and is blank otherwise. -/
def RowCorrectAt (alphabet : List TransitionLabel) (nfa : QueryNFA)
    (states : List (List Bool)) (row : List (Option Nat)) (s : List Bool)
    (σ : Nat) : Prop :=
  if (nextNFAStates nfa s (alphabet.getD σ .other)).any id then
    ∃ j, j < states.length ∧ row.getD σ none = some j ∧
      states.getD j [] = nextNFAStates nfa s (alphabet.getD σ .other)
  else row.getD σ none = none

/-- Correctness of a whole subset-construction transition row. -/
def RowCorrect (alphabet : List TransitionLabel) (nfa : QueryNFA)
    (states : List (List Bool)) (row : List (Option Nat)) (s : List Bool) : Prop :=
  ∀ σ, σ < alphabet.length → RowCorrectAt alphabet nfa states row s σ

/-- The worklist invariant of `determinize_nfa`.  `pend` lists the state
sets whose transition rows are still blank and waiting to be processed
(normally the queue itself; while one popped set is being processed it is
`pend` minus that set). -/
structure DetInvP (alphabet : List TransitionLabel) (nfa : QueryNFA)
    (st : DetState) (pend : List (List Bool)) : Prop where
  len_trans : st.transitions.length = st.dfa_states.length
  len_acc : st.is_accepting.length = st.dfa_states.length
  states_len : ∀ s ∈ st.dfa_states, s.length = nfa.num_states
  nodup : st.dfa_states.Nodup
  queue_sub : ∀ s ∈ st.queue, s ∈ st.dfa_states
  queue_nodup : st.queue.Nodup
  states_ne : st.dfa_states ≠ []
  start0 : st.dfa_states.getD 0 [] = startSetOf nfa
  acc_char : ∀ i, i < st.dfa_states.length →
    st.is_accepting.getD i false = hasAcceptingState nfa (st.dfa_states.getD i [])
  rows_ok : ∀ i, i < st.dfa_states.length →
    st.dfa_states.getD i [] ∈ pend ∨
      RowCorrect alphabet nfa st.dfa_states (st.transitions.getD i [])
        (st.dfa_states.getD i [])
  blank_ok : ∀ i, i < st.dfa_states.length → st.dfa_states.getD i [] ∈ pend →
    st.transitions.getD i [] = List.replicate alphabet.length none

/-- The worklist invariant with the pending rows being exactly the queue. -/
abbrev DetInv (alphabet : List TransitionLabel) (nfa : QueryNFA) (st : DetState) : Prop :=
  DetInvP alphabet nfa st st.queue

/-- The intermediate state of the symbol fold of `processState` working on
the popped set `s` interned at DFA index `d`: the first `c` entries of
`d`'s row are already correct, the rest still blank, every other row is
untouched, and every freshly interned set went to both the state list and
the queue. -/
structure DetMid (alphabet : List TransitionLabel) (nfa : QueryNFA)
    (st0 : DetState) (s : List Bool) (d : Nat) (c : Nat) (st1 : DetState) : Prop where
  ext : ∃ ext, st1.dfa_states = st0.dfa_states ++ ext ∧ st1.queue = st0.queue ++ ext
  len_trans : st1.transitions.length = st1.dfa_states.length
  len_acc : st1.is_accepting.length = st1.dfa_states.length
  states_len : ∀ x ∈ st1.dfa_states, x.length = nfa.num_states
  nodup : st1.dfa_states.Nodup
  acc_char : ∀ i, i < st1.dfa_states.length →
    st1.is_accepting.getD i false = hasAcceptingState nfa (st1.dfa_states.getD i [])
  other_rows : ∀ i, i < st1.dfa_states.length → i ≠ d →
    st1.transitions.getD i [] =
      (if i < st0.dfa_states.length then st0.transitions.getD i []
       else List.replicate alphabet.length none)
  drow_len : (st1.transitions.getD d []).length = alphabet.length
  drow_done : ∀ σ, σ < c →
    RowCorrectAt alphabet nfa st1.dfa_states (st1.transitions.getD d []) s σ
  drow_todo : ∀ σ, c ≤ σ → (st1.transitions.getD d []).getD σ none = none

/-! ### Query text parser and printer

The pest grammar file `src/query/grammar/query.pest` is absent from the
repository, so the token-level grammar is modelled from the spec (§4.1)
while the tree-walking construction of the AST is translated from the
walker functions of `src/query/parser.rs` and the printer from the
`Display` impl of `src/query/ast.rs`. -/

/-- Modelled from the spec: the character set excluded from unquoted field
names — `. | * ? [ ] ( ) /`, whitespace, `"` and `\`. -/
def isReservedChar (c : Char) : Bool :=
  c = '.' || c = '|' || c = '*' || c = '?' || c = '[' || c = ']' ||
  c = '(' || c = ')' || c = '/' || c.isWhitespace || c = '"' || c = '\\'

/-- Longest unquoted-field prefix and the remaining input. -/
def takeUnquoted : List Char → (List Char × List Char)
  | [] => ([], [])
  | c :: cs =>
    if isReservedChar c then ([], c :: cs)
    else
      let p := takeUnquoted cs
      (c :: p.1, p.2)

/-- Longest digit prefix and the remaining input. -/
def takeDigits : List Char → (List Char × List Char)
  | [] => ([], [])
  | c :: cs =>
    if c.isDigit then
      let p := takeDigits cs
      (c :: p.1, p.2)
    else ([], c :: cs)

/-- Decimal value of a digit run (`str::parse::<usize>`; the grammar only
produces digit runs, so parsing cannot fail on them). -/
def digitsToNat (ds : List Char) : Nat :=
  ds.foldl (fun n c => n * 10 + (c.toNat - 48)) 0

/-- Modelled from the spec: the body of a quoted field after the opening
quote — the escape pairs `\"` and `\\` are the only supported escapes —
returning the raw consumed characters (escapes untouched) and the input
after the closing quote; `none` on an unterminated or ill-escaped quote. -/
def takeQuotedInner : List Char → Option (List Char × List Char)
  | [] => none
  | '"' :: cs => some ([], cs)
  | '\\' :: c :: cs =>
    if c = '"' || c = '\\' then
      (takeQuotedInner cs).map (fun p => ('\\' :: c :: p.1, p.2))
    else none
  | c :: cs => (takeQuotedInner cs).map (fun p => (c :: p.1, p.2))

/-- Modelled from the spec: the body of a `/.../` regex after the opening
slash, treating `\/` as an embedded slash, returning the raw body and the
input after the closing slash. -/
def takeRegexInner : List Char → Option (List Char × List Char)
  | [] => none
  | '/' :: cs => some ([], cs)
  | '\\' :: '/' :: cs => (takeRegexInner cs).map (fun p => ('\\' :: '/' :: p.1, p.2))
  | c :: cs => (takeRegexInner cs).map (fun p => (c :: p.1, p.2))

/-- `pattern.replace("\\/", "/")` from `parse_regex`. -/
def unescapeRegex : List Char → List Char
  | [] => []
  | '\\' :: '/' :: cs => '/' :: unescapeRegex cs
  | c :: cs => c :: unescapeRegex cs

/-- Modelled from the spec: whitespace is insignificant around the `|`
separator of a disjunction (spaces in the repository's accepted examples
appear only there). -/
def skipSpaces : List Char → List Char
  | ' ' :: cs => skipSpaces cs
  | cs => cs

/-- One `[...]` access past the opening bracket: `[*]`, `[i]` or
`[lo?:hi?]`, with the `(start, end)` completion of `parse_range` from
`src/query/parser.rs` — `(None, None) → ArrayWildcard`,
`(None, Some e) → Range(0, e)`, `(Some s, None) → RangeFrom(s)`,
`(Some s, Some e) → Range(s, e)` — and `parse_index` for `[i]`. -/
def parseBracket (cs : List Char) : Option (Query × List Char) :=
  match cs with
  | '*' :: ']' :: rest => some (.arrayWildcard, rest)
  | _ =>
    let (d1, r1) := takeDigits cs
    match r1 with
    | ']' :: rest =>
      if d1.isEmpty then none
      else some (.index (digitsToNat d1), rest)
    | ':' :: r2 =>
      let (d2, r3) := takeDigits r2
      match r3 with
      | ']' :: rest =>
        if d1.isEmpty then
          if d2.isEmpty then some (.arrayWildcard, rest)
          else some (.range (some 0) (some (digitsToNat d2)), rest)
        else
          if d2.isEmpty then some (.rangeFrom (digitsToNat d1), rest)
          else some (.range (some (digitsToNat d1)) (some (digitsToNat d2)), rest)
      | _ => none
    | _ => none

/-- A field head: `parse_field` from `src/query/parser.rs` takes the raw
matched text of the `field` rule (`pair.as_str().to_string()`) — for a
quoted field that raw text keeps the surrounding quotes and the escape
backslashes; no unescaping is performed anywhere in the parser. -/
def parseFieldHead (cs : List Char) : Option (Query × List Char) :=
  match cs with
  | '"' :: rest =>
    match takeQuotedInner rest with
    | some (inner, rest') =>
      some (.field (String.mk ('"' :: (inner ++ ['"']))), rest')
    | none => none
  | _ =>
    let p := takeUnquoted cs
    if p.1.isEmpty then none else some (.field (String.mk p.1), p.2)

/-- Wrap the last parsed atom of a step with a postfix modifier
(`queries.pop()` / `push` in `parse_step`). -/
def modifyLast (qs : List Query) (wrap : Query → Query) : List Query :=
  qs.dropLast ++ [wrap (qs.getLast?.getD (Query.sequence []))]

/-- `parse_step`'s final shape rule: a single atom stays bare, several
atoms are wrapped in a `Sequence`. -/
def stepResult : List Query → Query
  | [q] => q
  | qs => .sequence qs

mutual
/-- Grammar rule `disjunction := sequence ("|" sequence)*` (modelled from
the spec) combined with `parse_disjunction` from `src/query/parser.rs`: a
single alternative flattens to that alternative.  The fuel argument is a
modelling artifact bounding the recursion through groups; the top-level
entry point passes enough for any input. -/
def parseDisjunction : Nat → List Char → Option (Query × List Char)
  | 0, _ => none
  | fuel + 1, cs => do
    let (q1, r1) ← parseSequence fuel cs
    let (qs, r2) ← parseDisjTail fuel r1
    match qs with
    | [] => pure (q1, r2)
    | _ => pure (.disjunction (q1 :: qs), r2)

/-- The `("|" sequence)*` tail of a disjunction, with whitespace allowed
around the separator. -/
def parseDisjTail : Nat → List Char → Option (List Query × List Char)
  | 0, _ => none
  | fuel + 1, cs =>
    match skipSpaces cs with
    | '|' :: r => do
      let (q, r2) ← parseSequence fuel (skipSpaces r)
      let (qs, r3) ← parseDisjTail fuel r2
      pure (q :: qs, r3)
    | _ => some ([], cs)

/-- Grammar rule `sequence := step ("." step)*` (modelled from the spec;
the `.` separator between steps is part of the concrete syntax) combined
with `parse_sequence`: the steps are always wrapped in a `Sequence`. -/
def parseSequence : Nat → List Char → Option (Query × List Char)
  | 0, _ => none
  | fuel + 1, cs => do
    let (q1, r1) ← parseStep fuel cs
    let (qs, r2) ← parseSeqTail fuel r1
    pure (Query.sequence (q1 :: qs), r2)

/-- The `("." step)*` tail of a sequence. -/
def parseSeqTail : Nat → List Char → Option (List Query × List Char)
  | 0, _ => none
  | fuel + 1, cs =>
    match cs with
    | '.' :: r => do
      let (q, r2) ← parseStep fuel r
      let (qs, r3) ← parseSeqTail fuel r2
      pure (q :: qs, r3)
    | _ => some ([], cs)

/-- Grammar rule `step := head accessor* modifier?` (modelled from the
spec; array accessors attach only to a field-typed head) combined with
`parse_step` from `src/query/parser.rs`: the modifier wraps the last
parsed atom, and a step of several atoms becomes a `Sequence`. -/
def parseStep : Nat → List Char → Option (Query × List Char)
  | 0, _ => none
  | fuel + 1, cs => do
    let (head, r1, isField) ←
      match cs with
      | '(' :: r => do
        let (q, r2) ← parseDisjunction fuel r
        match r2 with
        | ')' :: r3 => pure ((q, r3, false) : Query × List Char × Bool)
        | _ => none
      | '[' :: r => do
        let (q, r2) ← parseBracket r
        pure ((q, r2, false) : Query × List Char × Bool)
      | '*' :: r => pure ((.fieldWildcard, r, false) : Query × List Char × Bool)
      | '/' :: r => do
        let (body, r2) ← takeRegexInner r
        pure ((.regex (String.mk (unescapeRegex body)), r2, false) :
          Query × List Char × Bool)
      | _ => do
        let (q, r2) ← parseFieldHead cs
        pure ((q, r2, true) : Query × List Char × Bool)
    let (accs, r2) ← if isField then parseAccessors fuel r1 else pure ([], r1)
    let queries := head :: accs
    match r2 with
    | '*' :: r3 => pure (stepResult (modifyLast queries Query.kleeneStar), r3)
    | '?' :: r3 => pure (stepResult (modifyLast queries Query.optional), r3)
    | _ => pure (stepResult queries, r2)

/-- The `accessor*` loop of a step (`index | range | array_wildcard`,
i.e. every access starting with `[`). -/
def parseAccessors : Nat → List Char → Option (List Query × List Char)
  | 0, _ => none
  | fuel + 1, cs =>
    match cs with
    | '[' :: r =>
      match parseBracket r with
      | some (q, r2) => do
        let (qs, r3) ← parseAccessors fuel r2
        pure (q :: qs, r3)
      | none => none
    | _ => some ([], cs)
end

/-- `parse_query` from `src/query/parser.rs` over the spec-modelled
grammar: the empty string yields `Sequence([])`, otherwise the whole input
must parse as one disjunction; `none` models `Err(QueryParseError)`. -/
def parseQuery (s : String) : Option Query :=
  match s.data with
  | [] => some (.sequence [])
  | cs => do
    let (q, r) ← parseDisjunction (4 * cs.length + 4) cs
    match r with
    | [] => pure q
    | _ => none

/-- `needs_quoting` from `src/query/ast.rs`. -/
def needsQuoting (name : String) : Bool :=
  name.isEmpty ||
  name.data.any (fun c =>
    c = '.' || c = '|' || c = '*' || c = '?' || c = '[' || c = ']' ||
    c = '(' || c = ')' || c = '/' || c.isWhitespace || c = '"' || c = '\\')

/-- `escape_for_quoted_field` from `src/query/ast.rs`: `"` becomes `\"`
and `\` becomes `\\`. -/
def escapeForQuotedField (name : String) : String :=
  String.mk (name.data.foldr
    (fun c acc =>
      if c = '"' then '\\' :: '"' :: acc
      else if c = '\\' then '\\' :: '\\' :: acc
      else c :: acc) [])

/-- The modifier-stripping of the `Display` sequence arm (`Optional` and
`KleeneStar` expose their inner query for the separator decision). -/
def stripModifier : Query → Query
  | .optional q => q
  | .kleeneStar q => q
  | q => q

/-- The `.`-elision test of the `Display` sequence arm: no separator
between a field and an immediately following array access or wildcard. -/
def elideDot (prev cur : Query) : Bool :=
  match stripModifier prev, stripModifier cur with
  | .field _, .index _ => true
  | .field _, .range _ _ => true
  | .field _, .rangeFrom _ => true
  | .field _, .fieldWildcard => true
  | .field _, .arrayWildcard => true
  | _, _ => false

mutual
/-- `impl Display for Query` from `src/query/ast.rs` (`to_string`). -/
def displayQuery : Query → String
  | .field name =>
    if needsQuoting name then "\"" ++ escapeForQuotedField name ++ "\""
    else name
  | .index i => "[" ++ Nat.repr i ++ "]"
  | .range s e =>
    "[" ++ (match s with | some v => Nat.repr v | none => "") ++ ":" ++
      (match e with | some v => Nat.repr v | none => "") ++ "]"
  | .rangeFrom s => "[" ++ Nat.repr s ++ ":]"
  | .fieldWildcard => "*"
  | .arrayWildcard => "[*]"
  | .regex re => "/" ++ re ++ "/"
  | .optional q =>
    (match q with
     | .disjunction qs =>
       if qs.length > 1 then "(" ++ displayQuery q ++ ")" else displayQuery q
     | .sequence qs =>
       if qs.length > 1 then "(" ++ displayQuery q ++ ")" else displayQuery q
     | _ => displayQuery q) ++ "?"
  | .kleeneStar q =>
    (match q with
     | .disjunction qs =>
       if qs.length > 1 then "(" ++ displayQuery q ++ ")" else displayQuery q
     | .sequence qs =>
       if qs.length > 1 then "(" ++ displayQuery q ++ ")" else displayQuery q
     | _ => displayQuery q) ++ "*"
  | .disjunction qs => displayDisjList qs
  | .sequence qs => displaySeq none qs
termination_by structural q => q

/-- The `" | "`-joined rendering of a disjunction's alternatives. -/
def displayDisjList : List Query → String
  | [] => ""
  | [q] => displayQuery q
  | q :: qs => displayQuery q ++ " | " ++ displayDisjList qs
termination_by structural qs => qs

/-- The sequence arm of `Display`: separator elision against the previous
element and parenthesisation of nested disjunctions. -/
def displaySeq : Option Query → List Query → String
  | _, [] => ""
  | prev, q :: rest =>
    (match prev with
     | none => ""
     | some p => if elideDot p q then "" else ".") ++
    (match q with
     | .disjunction _ => "(" ++ displayQuery q ++ ")"
     | _ => displayQuery q) ++
    displaySeq (some q) rest
termination_by structural _ qs => qs
end

/-- Length invariants of the subset-construction worklist state: the
transition table and the acceptance bitmap stay in step with the list of
DFA states, and every transition row spans the whole alphabet. -/
def LenInv (alphabet : List TransitionLabel) (st : DetState) : Prop :=
  st.transitions.length = st.dfa_states.length ∧
  st.is_accepting.length = st.dfa_states.length ∧
  ∀ row ∈ st.transitions, row.length = alphabet.length

/-! ## Theorems -/

/-- Evaluation helper: a Boolean `any` over an attached list that only uses
the value reduces to a plain `any`. -/
theorem any_attach {α : Type _} (l : List α) (g : α → Bool) :
    (l.attach.any fun x => g x.val) = l.any g := by
  cases hall : l.any g with
  | true =>
    obtain ⟨a, ha, hg⟩ := List.any_eq_true.mp hall
    exact List.any_eq_true.mpr ⟨⟨a, ha⟩, List.mem_attach _ _, hg⟩
  | false =>
    rw [List.any_eq_false] at hall
    refine List.any_eq_false.mpr ?_
    intro x hx
    exact hall x.val x.property

theorem lookup_append (l1 l2 : List (String × Nat)) (f : String) :
    (l1 ++ l2).lookup f =
      match l1.lookup f with
      | some v => some v
      | none => l2.lookup f := by
  induction l1 with
  | nil => simp [List.lookup]
  | cons p l ih =>
    obtain ⟨k, v⟩ := p
    simp only [List.cons_append, List.lookup]
    cases f == k with
    | true => rfl
    | false => simpa using ih

theorem buildDFA_ne (q : Query) (hq : q ≠ Query.sequence []) :
    buildDFA q = buildDFAGeneral q := by
  cases q <;> try rfl
  next qs =>
    cases qs with
    | nil => exact absurd rfl hq
    | cons x xs => rfl

mutual
/-- What `extract_symbols` does to the builder: it appends fresh symbols to
the alphabet, appends exactly the query's collected raw intervals, leaves
`range_to_range_id` alone, and leaves the lookup of every field name not
collected from the query unchanged. -/
theorem extractSymbols_spec : ∀ (b : DFABuilder) (q : Query) (b' : DFABuilder),
    extractSymbols b q = some b' →
    (∃ ext, b'.alphabet = b.alphabet ++ ext) ∧
    b'.collected_ranges = b.collected_ranges ++ collectRanges q ∧
    b'.range_to_range_id = b.range_to_range_id ∧
    (∀ f, f ∉ collectFields q → b'.key_to_key_id.lookup f = b.key_to_key_id.lookup f)
  | b, .field name, b' => by
    intro h
    simp only [extractSymbols] at h
    cases hl : b.key_to_key_id.lookup name with
    | some id =>
      rw [hl] at h
      simp only [Option.some.injEq] at h
      subst h
      exact ⟨⟨[], by simp⟩, by simp [collectRanges], rfl, fun f _ => rfl⟩
    | none =>
      rw [hl] at h
      simp only [Option.some.injEq] at h
      subst h
      refine ⟨⟨[.field name], rfl⟩, by simp [collectRanges], rfl, fun f hf => ?_⟩
      simp only [collectFields, List.mem_singleton] at hf
      rw [lookup_append]
      cases hk : b.key_to_key_id.lookup f with
      | some v => rfl
      | none =>
        simp only [List.lookup]
        have hne : (f == name) = false := beq_eq_false_iff_ne.mpr hf
        rw [hne]
  | b, .index i, b' => by
    intro h
    simp only [extractSymbols, Option.some.injEq] at h
    subst h
    exact ⟨⟨[], by simp⟩, rfl, rfl, fun f _ => rfl⟩
  | b, .range s e, b' => by
    intro h
    simp only [extractSymbols, Option.some.injEq] at h
    subst h
    exact ⟨⟨[], by simp⟩, rfl, rfl, fun f _ => rfl⟩
  | b, .rangeFrom s, b' => by
    intro h
    simp only [extractSymbols, Option.some.injEq] at h
    subst h
    exact ⟨⟨[], by simp⟩, rfl, rfl, fun f _ => rfl⟩
  | b, .fieldWildcard, b' => by
    intro h
    simp only [extractSymbols, Option.some.injEq] at h
    subst h
    exact ⟨⟨[], by simp⟩, by simp [collectRanges], rfl, fun f _ => rfl⟩
  | b, .arrayWildcard, b' => by
    intro h
    simp only [extractSymbols, Option.some.injEq] at h
    subst h
    exact ⟨⟨[], by simp⟩, rfl, rfl, fun f _ => rfl⟩
  | b, .regex s, b' => by
    intro h
    simp only [extractSymbols] at h
    exact Option.noConfusion h
  | b, .optional q, b' => by
    intro h
    simp only [extractSymbols] at h
    simpa [collectRanges, collectFields] using extractSymbols_spec b q b' h
  | b, .kleeneStar q, b' => by
    intro h
    simp only [extractSymbols] at h
    simpa [collectRanges, collectFields] using extractSymbols_spec b q b' h
  | b, .disjunction qs, b' => by
    intro h
    simp only [extractSymbols] at h
    simpa [collectRanges, collectFields] using extractSymbolsList_spec b qs b' h
  | b, .sequence qs, b' => by
    intro h
    simp only [extractSymbols] at h
    simpa [collectRanges, collectFields] using extractSymbolsList_spec b qs b' h
termination_by structural _ q => q

theorem extractSymbolsList_spec : ∀ (b : DFABuilder) (qs : List Query) (b' : DFABuilder),
    extractSymbolsList b qs = some b' →
    (∃ ext, b'.alphabet = b.alphabet ++ ext) ∧
    b'.collected_ranges = b.collected_ranges ++ collectRangesList qs ∧
    b'.range_to_range_id = b.range_to_range_id ∧
    (∀ f, f ∉ collectFieldsList qs → b'.key_to_key_id.lookup f = b.key_to_key_id.lookup f)
  | b, [], b' => by
    intro h
    simp only [extractSymbolsList, Option.some.injEq] at h
    subst h
    exact ⟨⟨[], by simp⟩, by simp [collectRangesList], rfl, fun f _ => rfl⟩
  | b, q :: qs, b' => by
    intro h
    simp only [extractSymbolsList, Option.bind_eq_bind] at h
    cases hb1 : extractSymbols b q with
    | none => rw [hb1] at h; simp at h
    | some b1 =>
      rw [hb1] at h
      simp only [Option.bind_eq_bind, Option.some_bind] at h
      obtain ⟨⟨e1, ha1⟩, hc1, hr1, hk1⟩ := extractSymbols_spec b q b1 hb1
      obtain ⟨⟨e2, ha2⟩, hc2, hr2, hk2⟩ := extractSymbolsList_spec b1 qs b' h
      refine ⟨⟨e1 ++ e2, by rw [ha2, ha1, List.append_assoc]⟩, ?_, ?_, ?_⟩
      · rw [hc2, hc1, collectRangesList, List.append_assoc]
      · rw [hr2, hr1]
      · intro f hf
        simp only [collectFieldsList, List.mem_append] at hf
        push_neg at hf
        rw [hk2 f hf.2, hk1 f hf.1]
termination_by structural _ qs => qs
end

/-- The id-assignment fold of `finalize_ranges` only appends to the
alphabet. -/
theorem assignFold_alphabet_prefix :
    ∀ (rs : List (Nat × Nat)) (al : List TransitionLabel) (rl : List ((Nat × Nat) × Nat)),
      ∃ ext, (rs.foldl
        (fun (acc : List TransitionLabel × List ((Nat × Nat) × Nat)) r =>
          (acc.1 ++ [.range r.1 r.2], acc.2 ++ [(r, acc.1.length)])) (al, rl)).1 =
        al ++ ext
  | [], al, rl => ⟨[], by simp⟩
  | r :: rs, al, rl => by
    obtain ⟨ext, hext⟩ :=
      assignFold_alphabet_prefix rs (al ++ [.range r.1 r.2]) (rl ++ [(r, al.length)])
    exact ⟨[.range r.1 r.2] ++ ext, by simp only [List.foldl_cons, hext, List.append_assoc]⟩

/-- `finalize_ranges` only appends to the alphabet and fills
`range_to_range_id`; the key map and collected ranges are untouched. -/
theorem finalizeRanges_alphabet_prefix (b : DFABuilder) :
    ∃ ext, (finalizeRanges b).alphabet = b.alphabet ++ ext := by
  simp only [finalizeRanges]
  exact assignFold_alphabet_prefix _ _ _

/-- Claim C4 (counterexample).  The claim asserts that for every query AST
that compiles the compiled alphabet has `Other` at index 0, including the
empty query `Sequence([])`.  The empty query compiles to a DFA whose
alphabet is empty, so there is no symbol at index 0 at all. -/
theorem c4_counterexample :
    (buildDFA (Query.sequence [])).map (fun d => d.alphabet.get? 0) = some none := rfl

/-- Claim C4 (amended).  For every query AST that compiles to a DFA other
than the empty query `Sequence([])` (whose compiled alphabet is empty), the
alphabet has the `Other` label at index 0; and for every compiling AST —
including the empty query — `get_field_symbol_id` returns 0 for every field
name not collected from the query. -/
theorem c4_amended (q : Query) (dfa : QueryDFA) (h : buildDFA q = some dfa) :
    (q ≠ Query.sequence [] → dfa.alphabet.get? 0 = some .other) ∧
    (∀ f, f ∉ collectFields q → dfa.getFieldSymbolId f = 0) := by
  by_cases hq : q = Query.sequence []
  · subst hq
    simp only [buildDFA, Option.some.injEq] at h
    subst h
    refine ⟨fun hne => absurd rfl hne, fun f _ => ?_⟩
    simp [QueryDFA.getFieldSymbolId, List.lookup]
  · rw [buildDFA_ne q hq] at h
    simp only [buildDFAGeneral, Option.bind_eq_bind] at h
    cases hb : extractSymbols DFABuilder.new q with
    | none => rw [hb] at h; simp at h
    | some b =>
      rw [hb] at h
      simp only [Option.bind_eq_bind, Option.some_bind] at h
      cases hn : QueryNFA.fromQuery q with
      | none => rw [hn] at h; simp at h
      | some nfa =>
        rw [hn] at h
        simp only [Option.some_bind, Option.pure_def, Option.some.injEq] at h
        subst h
        obtain ⟨⟨e1, ha1⟩, _, _, hk1⟩ := extractSymbols_spec _ q b hb
        obtain ⟨e2, ha2⟩ := finalizeRanges_alphabet_prefix b
        constructor
        · intro _
          show (finalizeRanges b).alphabet.get? 0 = some .other
          rw [ha2, ha1]
          simp [DFABuilder.new]
        · intro f hf
          simp only [QueryDFA.getFieldSymbolId]
          have hkey : (determinizeNFA (finalizeRanges b) nfa).key_to_key_id =
              b.key_to_key_id := rfl
          rw [hkey, hk1 f hf]
          rfl

/-- Witness for the amended Claim C4 at the concrete query `a.b | a`. -/
theorem c4_amended_witness :
    (buildDFA (Query.disjunction [Query.sequence [Query.field "a", Query.field "b"],
        Query.sequence [Query.field "a"]])).map
      (fun d => (d.alphabet.get? 0, d.getFieldSymbolId "zzz")) = some (some .other, 0) := by
  obtain ⟨d, hd⟩ : ∃ d, buildDFA (Query.disjunction [Query.sequence [Query.field "a", Query.field "b"],
      Query.sequence [Query.field "a"]]) = some d := ⟨_, rfl⟩
  have h := c4_amended _ d hd
  rw [hd]
  have h1 := h.1 (by simp)
  have h2 := h.2 "zzz" (by decide)
  show some (d.alphabet.get? 0, d.getFieldSymbolId "zzz") = some (some .other, 0)
  rw [h1, h2]

/-- Claim C1 (code bug).  The claim states that `find` returns exactly the
records whose path word lies in `L(q)`, in depth-first document order.  The
code violates this: for the Regex-free query `(a.b)?.c` and the document
`{"b":{"c":1},"c":2}`, `find` returns the single record at path `b.c`
— whose word is *not* in `L((a.b)?.c) = {c, a·b·c}` — and misses the record
at path `c`, whose word *is* in the language.  (The cause is the `Sequence`
arm of `compute_first_set` in `src/query/nfa.rs`, which, unlike
`compute_last_set`, never resynchronises the position counter after a
nullable child that stopped early, so the first set of `(a.b)?.c` is
computed as `{a, b}` instead of `{a, c}`.)  `specFind` is the
specification's matcher. -/
theorem c1_find_diverges_from_spec :
    find (Value.obj [("b", .obj [("c", .num 1)]), ("c", .num 2)])
        (Query.sequence [.optional (.sequence [.field "a", .field "b"]), .field "c"]) =
      some [⟨[.field "b", .field "c"], .num 1⟩] ∧
    specFind (Query.sequence [.optional (.sequence [.field "a", .field "b"]), .field "c"])
        (Value.obj [("b", .obj [("c", .num 1)]), ("c", .num 2)]) =
      [⟨[.field "c"], .num 2⟩] ∧
    langMem (Query.sequence [.optional (.sequence [.field "a", .field "b"]), .field "c"])
        [.field "b", .field "c"] = false ∧
    langMem (Query.sequence [.optional (.sequence [.field "a", .field "b"]), .field "c"])
        [.field "c"] = true := by
  refine ⟨rfl, ?_, ?_, ?_⟩ <;>
    simp +decide [specFind, specFindGo, specFindObj, specFindArr, langMem, any_attach, splits]


/-- Claim C7.  At the symbol-collection stage (`extract_symbols`) and at the
NFA-labelling stage (`linearize_query`), the atom `Range(lo?, hi?)` matches
the array index `i` iff `lo` (defaulting to `0`) is at most `i` and `i` is
below `hi` (no upper constraint when `hi` is missing; `i` ranges over the
`usize` values that can be array indices, i.e. `i < usize::MAX`). -/
theorem c7_range_defaults (lo hi : Option Nat) (i : Nat) (hilt : i < USIZE_MAX) :
    ((extractSymbols DFABuilder.new (.range lo hi)).map
        (fun b => b.collected_ranges.any (fun r => decide (r.1 ≤ i) && decide (i < r.2)))) =
      some (decide (lo.getD 0 ≤ i) && hi.elim true (fun h => decide (i < h))) ∧
    ((linearizeQuery [] (.range lo hi)).map
        (fun ls => ls.any (fun l =>
          match l with
          | .range a b => decide (a ≤ i) && decide (i < b)
          | _ => false))) =
      some (decide (lo.getD 0 ≤ i) && hi.elim true (fun h => decide (i < h))) := by
  constructor <;>
  · simp only [extractSymbols, linearizeQuery, DFABuilder.new, Option.map_some',
      List.any_cons, List.any_nil, List.nil_append, Option.some.injEq, Bool.or_false]
    cases hi with
    | none =>
      simp only [Option.getD_none, Option.elim_none, Bool.and_true]
      rw [decide_eq_true hilt]
      simp
    | some h => simp [Option.elim]

/-- Witness for Claim C7 at `lo = some 1`, `hi = none`, `i = 5`. -/
theorem c7_witness :
    5 < USIZE_MAX ∧
    ((extractSymbols DFABuilder.new (.range (some 1) none)).map
        (fun b => b.collected_ranges.any (fun r => decide (r.1 ≤ 5) && decide (5 < r.2)))) =
      some (decide ((some 1).getD 0 ≤ 5) &&
        (none : Option Nat).elim true (fun h => decide (5 < h))) :=
  ⟨by decide, (c7_range_defaults (some 1) none 5 (by decide)).1⟩

/-- Claim C9 (counterexample).  The claim says compilation "fails —
surfacing a compile error to the caller rather than crashing — exactly when
the AST contains a Regex node".  `QueryDFA::from_query` returns a bare
`QueryDFA` (there is no error channel to surface anything on) and
`extract_symbols` hits `unimplemented!()` on a `Regex` node, i.e.
compilation crashes with a panic, modelled here as `none`. -/
theorem c9_counterexample : buildDFA (Query.sequence [Query.regex "a"]) = none := rfl

mutual
/-- `extract_symbols` panics exactly on ASTs containing a `Regex` node. -/
theorem extractSymbols_none_iff : ∀ (b : DFABuilder) (q : Query),
    extractSymbols b q = none ↔ containsRegex q = true
  | b, .field name => by
    simp only [extractSymbols, containsRegex]
    cases b.key_to_key_id.lookup name <;> simp
  | b, .index i => by simp [extractSymbols, containsRegex]
  | b, .range s e => by simp [extractSymbols, containsRegex]
  | b, .rangeFrom s => by simp [extractSymbols, containsRegex]
  | b, .fieldWildcard => by simp [extractSymbols, containsRegex]
  | b, .arrayWildcard => by simp [extractSymbols, containsRegex]
  | b, .regex s => by simp [extractSymbols, containsRegex]
  | b, .optional q => by
    simp only [extractSymbols, containsRegex]
    exact extractSymbols_none_iff b q
  | b, .kleeneStar q => by
    simp only [extractSymbols, containsRegex]
    exact extractSymbols_none_iff b q
  | b, .disjunction qs => by
    simp only [extractSymbols, containsRegex]
    exact extractSymbolsList_none_iff b qs
  | b, .sequence qs => by
    simp only [extractSymbols, containsRegex]
    exact extractSymbolsList_none_iff b qs
termination_by structural _ q => q

theorem extractSymbolsList_none_iff : ∀ (b : DFABuilder) (qs : List Query),
    extractSymbolsList b qs = none ↔ containsRegexList qs = true
  | b, [] => by simp [extractSymbolsList, containsRegexList]
  | b, q :: qs => by
    simp only [extractSymbolsList, containsRegexList, Option.bind_eq_bind, Bool.or_eq_true]
    cases hb : extractSymbols b q with
    | none =>
      simp only [Option.none_bind]
      have := (extractSymbols_none_iff b q).mp hb
      simp [this]
    | some b1 =>
      simp only [Option.bind_eq_bind, Option.some_bind]
      have hq : containsRegex q = false := by
        cases hcr : containsRegex q with
        | false => rfl
        | true => exact absurd ((extractSymbols_none_iff b q).mpr hcr) (by simp [hb])
      rw [extractSymbolsList_none_iff b1 qs]
      simp [hq]
termination_by structural _ qs => qs
end


mutual
/-- `linearize_query` panics exactly on ASTs containing a `Regex` node. -/
theorem linearizeQuery_none_iff : ∀ (acc : List TransitionLabel) (q : Query),
    linearizeQuery acc q = none ↔ containsRegex q = true
  | acc, .field name => by simp [linearizeQuery, containsRegex]
  | acc, .index i => by simp [linearizeQuery, containsRegex]
  | acc, .range s e => by simp [linearizeQuery, containsRegex]
  | acc, .rangeFrom s => by simp [linearizeQuery, containsRegex]
  | acc, .fieldWildcard => by simp [linearizeQuery, containsRegex]
  | acc, .arrayWildcard => by simp [linearizeQuery, containsRegex]
  | acc, .regex s => by simp [linearizeQuery, containsRegex]
  | acc, .optional q => by
    simp only [linearizeQuery, containsRegex]
    exact linearizeQuery_none_iff acc q
  | acc, .kleeneStar q => by
    simp only [linearizeQuery, containsRegex]
    exact linearizeQuery_none_iff acc q
  | acc, .disjunction qs => by
    simp only [linearizeQuery, containsRegex]
    exact linearizeList_none_iff acc qs
  | acc, .sequence qs => by
    simp only [linearizeQuery, containsRegex]
    exact linearizeList_none_iff acc qs
termination_by structural _ q => q

theorem linearizeList_none_iff : ∀ (acc : List TransitionLabel) (qs : List Query),
    linearizeList acc qs = none ↔ containsRegexList qs = true
  | acc, [] => by simp [linearizeList, containsRegexList]
  | acc, q :: qs => by
    simp only [linearizeList, containsRegexList, Option.bind_eq_bind, Bool.or_eq_true]
    cases hb : linearizeQuery acc q with
    | none =>
      simp only [Option.none_bind]
      have := (linearizeQuery_none_iff acc q).mp hb
      simp [this]
    | some acc1 =>
      simp only [Option.bind_eq_bind, Option.some_bind]
      have hq : containsRegex q = false := by
        cases hcr : containsRegex q with
        | false => rfl
        | true => exact absurd ((linearizeQuery_none_iff acc q).mpr hcr) (by simp [hb])
      rw [linearizeList_none_iff acc1 qs]
      simp [hq]
termination_by structural _ qs => qs
end

theorem noRegexList_mem {qs : List Query} (h : containsRegexList qs = false) :
    ∀ x ∈ qs, containsRegex x = false := by
  induction qs with
  | nil => intro x hx; exact absurd hx (List.not_mem_nil x)
  | cons q qs ih =>
    simp only [containsRegexList, Bool.or_eq_false_iff] at h
    intro x hx
    rcases List.mem_cons.mp hx with rfl | hx'
    · exact h.1
    · exact ih h.2 x hx'

theorem noRegex_getD {qs : List Query} (h : containsRegexList qs = false) (k : Nat) :
    containsRegex (qs.getD k default) = false := by
  have hgd : qs.getD k default = (qs.get? k).getD default := rfl
  rcases hk : qs.get? k with _ | x
  · rw [hgd, hk]
    rfl
  · rw [hgd, hk, Option.getD_some]
    exact noRegexList_mem h x (List.get?_mem hk)

mutual
/-- On Regex-free ASTs `contains_empty_word` does not panic. -/
theorem cew_isSome : ∀ (q : Query), containsRegex q = false →
    ∃ v, containsEmptyWord q = some v
  | .field name, _ => ⟨false, rfl⟩
  | .index i, _ => ⟨false, rfl⟩
  | .range s e, _ => ⟨false, rfl⟩
  | .rangeFrom s, _ => ⟨false, rfl⟩
  | .fieldWildcard, _ => ⟨false, rfl⟩
  | .arrayWildcard, _ => ⟨false, rfl⟩
  | .regex s, h => by simp [containsRegex] at h
  | .optional q, _ => ⟨true, rfl⟩
  | .kleeneStar q, _ => ⟨true, rfl⟩
  | .disjunction qs, h => by
    simp only [containsEmptyWord]
    exact cewAny_isSome qs (by simpa [containsRegex] using h)
  | .sequence qs, h => by
    simp only [containsEmptyWord]
    exact cewAll_isSome qs (by simpa [containsRegex] using h)
termination_by structural q => q

theorem cewAll_isSome : ∀ (qs : List Query), containsRegexList qs = false →
    ∃ v, cewAll qs = some v
  | [], _ => ⟨true, rfl⟩
  | q :: qs, h => by
    have h' := h
    simp only [containsRegexList, Bool.or_eq_false_iff] at h'
    obtain ⟨b, hb⟩ := cew_isSome q h'.1
    simp only [cewAll, hb, Option.some_bind]
    cases b with
    | true => exact cewAll_isSome qs h'.2
    | false => exact ⟨false, rfl⟩
termination_by structural qs => qs

theorem cewAny_isSome : ∀ (qs : List Query), containsRegexList qs = false →
    ∃ v, cewAny qs = some v
  | [], _ => ⟨false, rfl⟩
  | q :: qs, h => by
    have h' := h
    simp only [containsRegexList, Bool.or_eq_false_iff] at h'
    obtain ⟨b, hb⟩ := cew_isSome q h'.1
    simp only [cewAny, hb, Option.some_bind]
    cases b with
    | true => exact ⟨true, rfl⟩
    | false => exact cewAny_isSome qs h'.2
termination_by structural qs => qs
end

mutual
/-- On Regex-free ASTs `count_subquery_positions` does not panic. -/
theorem count_isSome : ∀ (q : Query), containsRegex q = false →
    ∃ v, countSubqueryPositions q = some v
  | .field name, _ => ⟨1, rfl⟩
  | .index i, _ => ⟨1, rfl⟩
  | .range s e, _ => ⟨1, rfl⟩
  | .rangeFrom s, _ => ⟨1, rfl⟩
  | .fieldWildcard, _ => ⟨1, rfl⟩
  | .arrayWildcard, _ => ⟨1, rfl⟩
  | .regex s, h => by simp [containsRegex] at h
  | .optional q, h => count_isSome q (by simpa [containsRegex] using h)
  | .kleeneStar q, h => count_isSome q (by simpa [containsRegex] using h)
  | .disjunction qs, h => by
    simp only [countSubqueryPositions]
    exact countList_isSome qs (by simpa [containsRegex] using h)
  | .sequence qs, h => by
    simp only [countSubqueryPositions]
    exact countList_isSome qs (by simpa [containsRegex] using h)
termination_by structural q => q

theorem countList_isSome : ∀ (qs : List Query), containsRegexList qs = false →
    ∃ v, countList qs = some v
  | [], _ => ⟨0, rfl⟩
  | q :: qs, h => by
    have h' := h
    simp only [containsRegexList, Bool.or_eq_false_iff] at h'
    obtain ⟨n, hn⟩ := count_isSome q h'.1
    obtain ⟨m, hm⟩ := countList_isSome qs h'.2
    exact ⟨n + m, by simp [countList, hn, hm]⟩
termination_by structural qs => qs
end

theorem mapM_count_isSome {qs : List Query} (h : containsRegexList qs = false) :
    ∃ v, qs.mapM countSubqueryPositions = some v := by
  induction qs with
  | nil => exact ⟨[], rfl⟩
  | cons q qs ih =>
    simp only [containsRegexList, Bool.or_eq_false_iff] at h
    obtain ⟨n, hn⟩ := count_isSome q h.1
    obtain ⟨v, hv⟩ := ih h.2
    refine ⟨n :: v, ?_⟩
    rw [List.mapM_cons, hn, hv]
    rfl

mutual
/-- On Regex-free ASTs `compute_first_set` does not panic. -/
theorem first_isSome : ∀ (q : Query), containsRegex q = false →
    ∀ st, ∃ out, computeFirstSet q st = some out
  | .field name, _, st => ⟨_, rfl⟩
  | .index i, _, st => ⟨_, rfl⟩
  | .range s e, _, st => ⟨_, rfl⟩
  | .rangeFrom s, _, st => ⟨_, rfl⟩
  | .fieldWildcard, _, st => ⟨_, rfl⟩
  | .arrayWildcard, _, st => ⟨_, rfl⟩
  | .regex s, h, st => by simp [containsRegex] at h
  | .optional q, h, st => first_isSome q (by simpa [containsRegex] using h) st
  | .kleeneStar q, h, st => first_isSome q (by simpa [containsRegex] using h) st
  | .disjunction qs, h, st => by
    simp only [computeFirstSet]
    exact firstDisj_isSome qs (by simpa [containsRegex] using h) st
  | .sequence qs, h, st => by
    simp only [computeFirstSet]
    exact firstSeq_isSome qs (by simpa [containsRegex] using h) st
termination_by structural q => q

theorem firstDisj_isSome : ∀ (qs : List Query), containsRegexList qs = false →
    ∀ st, ∃ out, firstDisj qs st = some out
  | [], _, st => ⟨st, rfl⟩
  | q :: qs, h, (fs, pos) => by
    have h' := h
    simp only [containsRegexList, Bool.or_eq_false_iff] at h'
    obtain ⟨n, hn⟩ := count_isSome q h'.1
    obtain ⟨out1, hout1⟩ := first_isSome q h'.1 (fs, pos)
    obtain ⟨out, hout⟩ := firstDisj_isSome qs h'.2 (out1.1, pos + n)
    refine ⟨out, ?_⟩
    simp only [firstDisj, hn, hout1, Option.some_bind]
    exact hout
termination_by structural qs => qs

theorem firstSeq_isSome : ∀ (qs : List Query), containsRegexList qs = false →
    ∀ st, ∃ out, firstSeq qs st = some out
  | [], _, st => ⟨st, rfl⟩
  | q :: qs, h, st => by
    have h' := h
    simp only [containsRegexList, Bool.or_eq_false_iff] at h'
    obtain ⟨out1, hout1⟩ := first_isSome q h'.1 st
    obtain ⟨b, hb⟩ := cew_isSome q h'.1
    cases b with
    | true =>
      obtain ⟨out, hout⟩ := firstSeq_isSome qs h'.2 out1
      exact ⟨out, by simp [firstSeq, hout1, hb, hout]⟩
    | false => exact ⟨out1, by simp [firstSeq, hout1, hb]⟩
termination_by structural qs => qs
end

mutual
/-- On Regex-free ASTs `compute_last_set` does not panic. -/
theorem last_isSome : ∀ (q : Query), containsRegex q = false →
    ∀ st, ∃ out, computeLastSet q st = some out
  | .field name, _, st => ⟨_, rfl⟩
  | .index i, _, st => ⟨_, rfl⟩
  | .range s e, _, st => ⟨_, rfl⟩
  | .rangeFrom s, _, st => ⟨_, rfl⟩
  | .fieldWildcard, _, st => ⟨_, rfl⟩
  | .arrayWildcard, _, st => ⟨_, rfl⟩
  | .regex s, h, st => by simp [containsRegex] at h
  | .optional q, h, st => last_isSome q (by simpa [containsRegex] using h) st
  | .kleeneStar q, h, st => last_isSome q (by simpa [containsRegex] using h) st
  | .disjunction qs, h, st => by
    simp only [computeLastSet]
    exact lastDisj_isSome qs (by simpa [containsRegex] using h) st
  | .sequence qs, h, (ls, pos) => by
    have h' : containsRegexList qs = false := by simpa [containsRegex] using h
    obtain ⟨lens, hlens⟩ := mapM_count_isSome h'
    obtain ⟨⟨ls1, flag⟩, hout1⟩ := lastSeq_isSome qs h' pos ls
    refine ⟨(ls1, pos + lens.sum), ?_⟩
    simp only [computeLastSet]
    rw [hlens]
    simp only [Option.bind_eq_bind, Option.some_bind]
    rw [hout1]
    rfl
termination_by structural q => q

theorem lastDisj_isSome : ∀ (qs : List Query), containsRegexList qs = false →
    ∀ st, ∃ out, lastDisj qs st = some out
  | [], _, st => ⟨st, rfl⟩
  | q :: qs, h, (ls, pos) => by
    have h' := h
    simp only [containsRegexList, Bool.or_eq_false_iff] at h'
    obtain ⟨n, hn⟩ := count_isSome q h'.1
    obtain ⟨out1, hout1⟩ := last_isSome q h'.1 (ls, pos)
    obtain ⟨out, hout⟩ := lastDisj_isSome qs h'.2 (out1.1, pos + n)
    refine ⟨out, ?_⟩
    simp only [lastDisj, hn, hout1, Option.some_bind]
    exact hout
termination_by structural qs => qs

theorem lastSeq_isSome : ∀ (qs : List Query), containsRegexList qs = false →
    ∀ start ls, ∃ out, lastSeq qs start ls = some out
  | [], _, start, ls => ⟨(ls, true), rfl⟩
  | q :: qs, h, start, ls => by
    have h' := h
    simp only [containsRegexList, Bool.or_eq_false_iff] at h'
    obtain ⟨n, hn⟩ := count_isSome q h'.1
    obtain ⟨⟨ls1, flag⟩, hout1⟩ := lastSeq_isSome qs h'.2 (start + n) ls
    cases flag with
    | true =>
      obtain ⟨⟨ls2, p2⟩, hout2⟩ := last_isSome q h'.1 (ls1, start)
      obtain ⟨b, hb⟩ := cew_isSome q h'.1
      refine ⟨(ls2, b), ?_⟩
      simp only [lastSeq]
      rw [hn]
      simp only [Option.bind_eq_bind, Option.some_bind]
      rw [hout1]
      simp [hout2, hb]
    | false =>
      refine ⟨(ls1, false), ?_⟩
      simp only [lastSeq]
      rw [hn]
      simp only [Option.bind_eq_bind, Option.some_bind]
      rw [hout1]
      simp
termination_by structural qs => qs
end

theorem foldlM_isSome {α β : Type} (f : β → α → Option β) (l : List α)
    (hf : ∀ b a, a ∈ l → ∃ out, f b a = some out) :
    ∀ b, ∃ out, l.foldlM f b = some out := by
  induction l with
  | nil => exact fun b => ⟨b, rfl⟩
  | cons a l ih =>
    intro b
    obtain ⟨b1, hb1⟩ := hf b a (List.mem_cons_self a l)
    obtain ⟨out, hout⟩ := ih (fun b a ha => hf b a (List.mem_cons_of_mem _ ha)) b1
    exact ⟨out, by rw [List.foldlM_cons, hb1]; simpa using hout⟩

theorem cewRange_isSome {qs : List Query} (h : containsRegexList qs = false)
    (ks : List Nat) : ∃ v, cewRange qs ks = some v := by
  induction ks with
  | nil => exact ⟨true, rfl⟩
  | cons k ks ih =>
    obtain ⟨b, hb⟩ := cew_isSome (qs.getD k default) (noRegex_getD h k)
    rw [List.getD_eq_getElem?_getD] at hb
    cases b with
    | true =>
      obtain ⟨v, hv⟩ := ih
      exact ⟨v, by simp [cewRange, hb, hv]⟩
    | false => exact ⟨false, by simp [cewRange, hb]⟩

theorem seqBoundaryInner_isSome {qs : List Query} (h : containsRegexList qs = false)
    (ranges : List (Nat × Nat)) (i : Nat) (leftLast : List Bool) (ls le : Nat)
    (js : List Nat) : ∀ fac, ∃ out,
      seqBoundaryInner qs ranges i leftLast ls le js fac = some out := by
  induction js with
  | nil => exact fun fac => ⟨fac, rfl⟩
  | cons j rest ih =>
    intro fac
    obtain ⟨cs, hcs⟩ := cewRange_isSome h (List.range' (i + 1) (j - (i + 1)))
    obtain ⟨bj, hbj⟩ := cew_isSome (qs.getD j default) (noRegex_getD h j)
    rw [List.getD_eq_getElem?_getD] at hbj
    rcases hre : ranges.getD j (0, 0) with ⟨rs, re⟩
    rw [List.getD_eq_getElem?_getD, show ((0, 0) : Nat × Nat) = 0 from rfl] at hre
    cases cs with
    | false =>
      cases bj with
      | true =>
        obtain ⟨out, hout⟩ := ih fac
        exact ⟨out, by simp [seqBoundaryInner, hcs, hbj, hout]⟩
      | false => exact ⟨fac, by simp [seqBoundaryInner, hcs, hbj]⟩
    | true =>
      obtain ⟨⟨rf, p1⟩, hfirst⟩ := first_isSome (qs.getD j default) (noRegex_getD h j)
        (List.replicate fac.length false, rs)
      rw [List.getD_eq_getElem?_getD] at hfirst
      cases bj with
      | true =>
        obtain ⟨out, hout⟩ := ih (pushFollowPairs leftLast rf ls le rs re fac)
        exact ⟨out, by simp [seqBoundaryInner, hcs, hre, hfirst, hbj, hout]⟩
      | false =>
        exact ⟨pushFollowPairs leftLast rf ls le rs re fac,
          by simp [seqBoundaryInner, hcs, hre, hfirst, hbj]⟩

theorem seqBoundaryOuter_isSome {qs : List Query} (h : containsRegexList qs = false)
    (ranges : List (Nat × Nat)) (fac0 : List (List Nat)) :
    ∃ out, seqBoundaryOuter qs ranges fac0 = some out := by
  simp only [seqBoundaryOuter]
  refine foldlM_isSome _ _ ?_ fac0
  intro fac i _
  rcases hre : ranges.getD i (0, 0) with ⟨ls, le⟩
  rw [List.getD_eq_getElem?_getD, show ((0, 0) : Nat × Nat) = 0 from rfl] at hre
  obtain ⟨⟨ll, p1⟩, hlast⟩ := last_isSome (qs.getD i default) (noRegex_getD h i)
    (List.replicate fac.length false, ls)
  rw [List.getD_eq_getElem?_getD] at hlast
  obtain ⟨out, hout⟩ := seqBoundaryInner_isSome h ranges i ll ls le
    (List.range' (i + 1) (qs.length - (i + 1))) fac
  exact ⟨out, by simp [hre, hlast, hout]⟩

mutual
/-- On Regex-free ASTs `compute_follows_set` does not panic. -/
theorem follows_isSome : ∀ (q : Query), containsRegex q = false →
    ∀ st, ∃ out, computeFollowsSet q st = some out
  | .field name, _, (fac, pos) => ⟨_, rfl⟩
  | .index i, _, (fac, pos) => ⟨_, rfl⟩
  | .range s e, _, (fac, pos) => ⟨_, rfl⟩
  | .rangeFrom s, _, (fac, pos) => ⟨_, rfl⟩
  | .fieldWildcard, _, (fac, pos) => ⟨_, rfl⟩
  | .arrayWildcard, _, (fac, pos) => ⟨_, rfl⟩
  | .regex s, h, st => by simp [containsRegex] at h
  | .optional q, h, st => follows_isSome q (by simpa [containsRegex] using h) st
  | .disjunction qs, h, st => by
    simp only [computeFollowsSet]
    exact followsDisj_isSome qs (by simpa [containsRegex] using h) st
  | .sequence qs, h, (fac, pos) => by
    have h' : containsRegexList qs = false := by simpa [containsRegex] using h
    obtain ⟨⟨fac1, pos1, ranges⟩, hch⟩ := followsChildren_isSome qs h' (fac, pos, [])
    obtain ⟨fac2, houter⟩ := seqBoundaryOuter_isSome h' ranges fac1
    refine ⟨(fac2, pos1), ?_⟩
    simp only [computeFollowsSet]
    rw [hch]
    simp only [Option.bind_eq_bind, Option.some_bind]
    rw [houter]
    rfl
  | .kleeneStar q, h, (fac, pos) => by
    have h' : containsRegex q = false := by simpa [containsRegex] using h
    obtain ⟨n, hn⟩ := count_isSome q h'
    obtain ⟨⟨fac1, pos1⟩, h1⟩ := follows_isSome q h' (fac, pos)
    obtain ⟨⟨lastSet, p2⟩, h2⟩ := last_isSome q h' (List.replicate fac1.length false, pos)
    obtain ⟨⟨firstSet, p3⟩, h3⟩ := first_isSome q h' (List.replicate fac1.length false, pos)
    refine ⟨(pushFollowPairs lastSet firstSet pos (pos + n) pos (pos + n) fac1, pos1), ?_⟩
    simp only [computeFollowsSet]
    rw [hn]
    simp only [Option.bind_eq_bind, Option.some_bind]
    rw [h1]
    simp only [Option.some_bind]
    rw [h2]
    simp only [Option.some_bind]
    rw [h3]
    rfl
termination_by structural q => q

theorem followsDisj_isSome : ∀ (qs : List Query), containsRegexList qs = false →
    ∀ st, ∃ out, followsDisj qs st = some out
  | [], _, st => ⟨st, rfl⟩
  | q :: qs, h, st => by
    have h' := h
    simp only [containsRegexList, Bool.or_eq_false_iff] at h'
    obtain ⟨st', hst'⟩ := follows_isSome q h'.1 st
    obtain ⟨out, hout⟩ := followsDisj_isSome qs h'.2 st'
    refine ⟨out, ?_⟩
    simp only [followsDisj]
    rw [hst']
    simp only [Option.bind_eq_bind, Option.some_bind]
    exact hout
termination_by structural qs => qs

theorem followsChildren_isSome : ∀ (qs : List Query), containsRegexList qs = false →
    ∀ st, ∃ out, followsChildren qs st = some out
  | [], _, st => ⟨st, rfl⟩
  | q :: qs, h, (fac, pos, rngs) => by
    have h' := h
    simp only [containsRegexList, Bool.or_eq_false_iff] at h'
    obtain ⟨n, hn⟩ := count_isSome q h'.1
    obtain ⟨⟨fac1, pos1⟩, h1⟩ := follows_isSome q h'.1 (fac, pos)
    obtain ⟨out, hout⟩ :=
      followsChildren_isSome qs h'.2 (fac1, pos1, rngs ++ [(pos, pos + n)])
    refine ⟨out, ?_⟩
    simp only [followsChildren]
    rw [hn]
    simp only [Option.bind_eq_bind, Option.some_bind]
    rw [h1]
    simp only [Option.some_bind]
    exact hout
termination_by structural qs => qs
end

/-- On Regex-free ASTs the full Glushkov construction succeeds. -/
theorem fromQuery_isSome {q : Query} (h : containsRegex q = false) :
    ∃ nfa, QueryNFA.fromQuery q = some nfa := by
  have hne : linearizeQuery [] q ≠ none := by
    intro hn
    rw [linearizeQuery_none_iff] at hn
    rw [hn] at h
    exact Bool.true_eq_false.mp h
  obtain ⟨labels, hlab⟩ := Option.ne_none_iff_exists'.mp hne
  refine Option.isSome_iff_exists.mp ?_
  by_cases hz : labels = []
  · simp [QueryNFA.fromQuery, hlab, hz]
  · obtain ⟨cew, hcew⟩ := cew_isSome q h
    obtain ⟨⟨fs, p1⟩, hfs⟩ := first_isSome q h (List.replicate labels.length false, 0)
    obtain ⟨⟨ls, p2⟩, hls⟩ := last_isSome q h (List.replicate labels.length false, 0)
    obtain ⟨⟨fac, p3⟩, hfac⟩ := follows_isSome q h (List.replicate labels.length [], 0)
    simp [QueryNFA.fromQuery, hlab, hz, hcew, hfs, hls, hfac]

/-- Claim C9 (amended).  `build_dfa` fails — returning the failure to the
caller, which the source realises as an `unimplemented!()` panic inside
`extract_symbols` / `linearize_query` rather than a returned error — exactly
on ASTs containing a `Regex` node: compilation of every Regex-free AST
succeeds. -/
theorem c9_amended (q : Query) : buildDFA q = none ↔ containsRegex q = true := by
  constructor
  · intro hnone
    by_contra hreg
    have hfalse : containsRegex q = false := by
      cases hcr : containsRegex q with
      | false => rfl
      | true => exact absurd hcr hreg
    by_cases hq : q = Query.sequence []
    · rw [hq] at hnone
      exact Option.some_ne_none _ hnone
    · rw [buildDFA_ne q hq] at hnone
      have hext : extractSymbols DFABuilder.new q ≠ none := by
        intro hn
        rw [extractSymbols_none_iff] at hn
        rw [hn] at hfalse
        exact Bool.true_eq_false.mp hfalse
      obtain ⟨b, hb⟩ := Option.ne_none_iff_exists'.mp hext
      obtain ⟨nfa, hnfa⟩ := fromQuery_isSome hfalse
      rw [buildDFAGeneral, hb] at hnone
      simp only [Option.bind_eq_bind, Option.some_bind] at hnone
      rw [hnfa] at hnone
      exact Option.some_ne_none _ hnone
  · intro hreg
    have hq : q ≠ Query.sequence [] := by
      intro hq
      rw [hq] at hreg
      exact Bool.false_ne_true hreg
    rw [buildDFA_ne q hq, buildDFAGeneral]
    have hext : extractSymbols DFABuilder.new q = none :=
      (extractSymbols_none_iff DFABuilder.new q).mpr hreg
    rw [hext]
    rfl

theorem foldl_preserve {α β : Type _} (P : β → Prop) (f : β → α → β) (l : List α)
    (hf : ∀ b a, P b → P (f b a)) : ∀ b, P b → P (l.foldl f b) := by
  induction l with
  | nil => exact fun b hb => hb
  | cons a l ih => exact fun b hb => ih (f b a) (hf b a hb)

theorem setTrans_length (t : List (List (Option Nat))) (i j v : Nat) :
    (setTrans t i j v).length = t.length := by
  simp [setTrans]

theorem setTrans_rows {t : List (List (Option Nat))} {i j v : Nat} {L : Nat}
    (ht : ∀ row ∈ t, row.length = L) :
    ∀ row ∈ setTrans t i j v, row.length = L := by
  intro row hrow
  rcases lt_or_ge i t.length with hi | hi
  · rcases List.mem_or_eq_of_mem_set hrow with hmem | heq
    · exact ht row hmem
    · subst heq
      rw [List.length_set]
      have hget : t.getD i [] = t.get ⟨i, hi⟩ := by
        rw [List.getD_eq_getElem?_getD, List.getElem?_eq_getElem hi]
        rfl
      rw [hget]
      exact ht _ (List.get_mem t i hi)
  · rw [setTrans, List.set_eq_of_length_le hi] at hrow
    exact ht row hrow

theorem processState_inv {alphabet : List TransitionLabel} {nfa : QueryNFA}
    {st : DetState} (hinv : LenInv alphabet st) (cur : List Bool) :
    LenInv alphabet (processState alphabet nfa st cur) := by
  refine foldl_preserve (LenInv alphabet) _ _ ?_ st hinv
  intro st1 symPair h1
  obtain ⟨h1t, h1a, h1rows⟩ := h1
  dsimp only
  by_cases hany : (nextNFAStates nfa cur symPair.2).any id = true
  · rw [if_pos hany]
    rcases hfind : st1.dfa_states.findIdx? (· == nextNFAStates nfa cur symPair.2)
      with _ | j
    · refine ⟨?_, ?_, ?_⟩
      · simp [setTrans_length, h1t]
      · simp [h1a]
      · intro row hrow
        rcases List.mem_append.mp hrow with hmem | hmem
        · exact setTrans_rows h1rows row hmem
        · rw [List.mem_singleton.mp hmem]
          exact List.length_replicate _ _
    · exact ⟨by simp [setTrans_length, h1t], h1a, setTrans_rows h1rows⟩
  · rw [if_neg hany]
    exact ⟨h1t, h1a, h1rows⟩

theorem detLoop_inv {alphabet : List TransitionLabel} {nfa : QueryNFA} :
    ∀ (fuel : Nat) (st : DetState), LenInv alphabet st →
      LenInv alphabet (detLoop alphabet nfa fuel st)
  | 0, _, h => h
  | fuel + 1, st, h => by
    simp only [detLoop]
    cases hq : st.queue with
    | nil => exact h
    | cons s rest =>
      refine detLoop_inv fuel _ (processState_inv ?_ s)
      exact ⟨h.1, h.2.1, h.2.2⟩

theorem detInit_inv (alphabet : List TransitionLabel) (nfa : QueryNFA) :
    LenInv alphabet (detInit alphabet nfa) := by
  refine ⟨rfl, rfl, ?_⟩
  intro row hrow
  rw [List.mem_singleton.mp hrow]
  exact List.length_replicate _ _

theorem determinizeState_inv (alphabet : List TransitionLabel) (nfa : QueryNFA) :
    LenInv alphabet (determinizeState alphabet nfa) :=
  detLoop_inv _ _ (detInit_inv alphabet nfa)

/-- Claim C10.  `transition` and `is_accepting_state` are total: their
bounds guards return `none` / `false` on every out-of-range argument, and
on every compiled DFA the guarded reads are in bounds — the state rows of
the transition table exist and span the alphabet, and the accepting bitmap
covers all `num_states` states — so the matcher never reads out of
bounds. -/
theorem c10_total_access (q : Query) (dfa : QueryDFA) (h : buildDFA q = some dfa) :
    (∀ s σ, dfa.num_states ≤ s ∨ dfa.alphabet.length ≤ σ →
      dfa.transition s σ = none) ∧
    (∀ s, dfa.num_states ≤ s → dfa.isAcceptingState s = false) ∧
    (∀ s σ, s < dfa.num_states → σ < dfa.alphabet.length →
      s < dfa.transitions.length ∧ σ < (dfa.transitions.getD s []).length) ∧
    (∀ s, s < dfa.num_states → s < dfa.is_accepting.length) := by
  refine ⟨?_, ?_, ?_, ?_⟩
  · intro s σ hs
    rw [QueryDFA.transition, if_neg]
    intro hc
    rcases hs with hs | hs
    · exact absurd hc.1 (Nat.not_lt.mpr hs)
    · exact absurd hc.2 (Nat.not_lt.mpr hs)
  · intro s hs
    have hns : ¬ s < dfa.num_states := Nat.not_lt.mpr hs
    simp [QueryDFA.isAcceptingState, hns]
  all_goals
    by_cases hq : q = Query.sequence []
  · rw [hq] at h
    injection h with hd
    subst hd
    intro s σ _ hσ
    exact absurd hσ (by simp)
  · rw [buildDFA_ne q hq, buildDFAGeneral] at h
    rcases hb : extractSymbols DFABuilder.new q with _ | b <;> rw [hb] at h
    · exact absurd h (by simp)
    rcases hn : QueryNFA.fromQuery q with _ | nfa <;>
      simp only [Option.bind_eq_bind, Option.none_bind, Option.some_bind, hn] at h
    · exact absurd h (by simp)
    have hdfa : dfa = determinizeNFA (finalizeRanges b) nfa := by
      simpa [Option.pure_def] using h.symm
    obtain ⟨ht, ha, hrows⟩ :=
      determinizeState_inv (finalizeRanges b).alphabet nfa
    intro s σ hs hσ
    rw [hdfa] at hs hσ ⊢
    simp only [determinizeNFA] at hs hσ ⊢
    rw [ht]
    refine ⟨hs, ?_⟩
    have hs' : s < (determinizeState (finalizeRanges b).alphabet nfa).transitions.length := by
      rw [ht]
      exact hs
    have hget : (determinizeState (finalizeRanges b).alphabet nfa).transitions.getD s []
        = (determinizeState (finalizeRanges b).alphabet nfa).transitions.get ⟨s, hs'⟩ := by
      rw [List.getD_eq_getElem?_getD, List.getElem?_eq_getElem hs']
      rfl
    rw [hget, hrows _ (List.get_mem _ _ _)]
    exact hσ
  · rw [hq] at h
    injection h with hd
    subst hd
    intro s hs
    simpa using hs
  · rw [buildDFA_ne q hq, buildDFAGeneral] at h
    rcases hb : extractSymbols DFABuilder.new q with _ | b <;> rw [hb] at h
    · exact absurd h (by simp)
    rcases hn : QueryNFA.fromQuery q with _ | nfa <;>
      simp only [Option.bind_eq_bind, Option.none_bind, Option.some_bind, hn] at h
    · exact absurd h (by simp)
    have hdfa : dfa = determinizeNFA (finalizeRanges b) nfa := by
      simpa [Option.pure_def] using h.symm
    obtain ⟨ht, ha, hrows⟩ :=
      determinizeState_inv (finalizeRanges b).alphabet nfa
    intro s hs
    rw [hdfa] at hs ⊢
    simp only [determinizeNFA] at hs ⊢
    rw [ha]
    exact hs

/-- Witness for Claim C10 at the concrete query `a`. -/
theorem c10_witness :
    ∃ dfa, buildDFA (Query.field "a") = some dfa ∧
      ((∀ s σ, dfa.num_states ≤ s ∨ dfa.alphabet.length ≤ σ →
        dfa.transition s σ = none) ∧
      (∀ s, dfa.num_states ≤ s → dfa.isAcceptingState s = false) ∧
      (∀ s σ, s < dfa.num_states → σ < dfa.alphabet.length →
        s < dfa.transitions.length ∧ σ < (dfa.transitions.getD s []).length) ∧
      (∀ s, s < dfa.num_states → s < dfa.is_accepting.length)) := by
  obtain ⟨dfa, hd⟩ : ∃ d, buildDFA (Query.field "a") = some d := ⟨_, rfl⟩
  exact ⟨dfa, hd, c10_total_access (Query.field "a") dfa hd⟩

theorem binarySearchGo_some {α : Type} [Inhabited α] (v : List α) (cmp : α → Ordering) :
    ∀ (fuel lo hi m : Nat), binarySearchGo v cmp fuel lo hi = some m →
      lo ≤ m ∧ m < hi ∧ cmp (v.getD m default) = .eq := by
  intro fuel
  induction fuel with
  | zero =>
    intro lo hi m h
    exact absurd h (by simp [binarySearchGo])
  | succ fuel ih =>
    intro lo hi m h
    simp only [binarySearchGo] at h
    by_cases hlt : lo < hi
    · rw [if_pos hlt] at h
      cases hc : cmp (v.getD (lo + (hi - lo) / 2) default) with
      | lt =>
        rw [hc] at h
        obtain ⟨h1, h2, h3⟩ := ih _ _ _ h
        exact ⟨by omega, h2, h3⟩
      | gt =>
        rw [hc] at h
        obtain ⟨h1, h2, h3⟩ := ih _ _ _ h
        exact ⟨h1, by omega, h3⟩
      | eq =>
        rw [hc] at h
        have hm : m = lo + (hi - lo) / 2 := (Option.some.inj h).symm
        subst hm
        exact ⟨by omega, by omega, hc⟩
    · rw [if_neg hlt] at h
      exact absurd h (by simp)

theorem binarySearchGo_none {α : Type} [Inhabited α] (v : List α) (cmp : α → Ordering)
    (hm1 : ∀ j k, j ≤ k → k < v.length → cmp (v.getD k default) = .lt →
      cmp (v.getD j default) = .lt)
    (hm2 : ∀ j k, j ≤ k → k < v.length → cmp (v.getD j default) = .gt →
      cmp (v.getD k default) = .gt) :
    ∀ (fuel lo hi : Nat), hi ≤ v.length → hi - lo < fuel →
      binarySearchGo v cmp fuel lo hi = none →
      ∀ j, lo ≤ j → j < hi → cmp (v.getD j default) ≠ .eq := by
  intro fuel
  induction fuel with
  | zero =>
    intro lo hi hhi hfuel hnone j hj1 hj2
    omega
  | succ fuel ih =>
    intro lo hi hhi hfuel hnone j hj1 hj2
    simp only [binarySearchGo] at hnone
    by_cases hlt : lo < hi
    · rw [if_pos hlt] at hnone
      cases hc : cmp (v.getD (lo + (hi - lo) / 2) default) with
      | lt =>
        rw [hc] at hnone
        by_cases hjm : j ≤ lo + (hi - lo) / 2
        · have hj : cmp (v.getD j default) = .lt :=
            hm1 j (lo + (hi - lo) / 2) hjm (by omega) hc
          intro hcontra
          rw [hj] at hcontra
          exact Ordering.noConfusion hcontra
        · exact ih (lo + (hi - lo) / 2 + 1) hi hhi (by omega) hnone j (by omega) hj2
      | eq =>
        rw [hc] at hnone
        exact absurd hnone (by simp)
      | gt =>
        rw [hc] at hnone
        by_cases hjm : j < lo + (hi - lo) / 2
        · exact ih lo (lo + (hi - lo) / 2) (by omega) (by omega) hnone j hj1 hjm
        · have hj : cmp (v.getD j default) = .gt :=
            hm2 (lo + (hi - lo) / 2) j (by omega) (by omega) hc
          intro hcontra
          rw [hj] at hcontra
          exact Ordering.noConfusion hcontra
    · omega

/-- Sorted-by-start, pairwise-disjoint, nonempty intervals are in fact
end-before-start ordered. -/
theorem ranges_strongly_sorted {v : List ((Nat × Nat) × Nat)}
    (hsorted : v.Pairwise (fun a c => a.1.1 ≤ c.1.1))
    (hdisj : v.Pairwise (fun a c =>
      ∀ n : Nat, ¬(a.1.1 ≤ n ∧ n < a.1.2) ∨ ¬(c.1.1 ≤ n ∧ n < c.1.2)))
    (hne : ∀ e ∈ v, e.1.1 < e.1.2) :
    v.Pairwise (fun a c => a.1.2 ≤ c.1.1) := by
  have hand := hsorted.and hdisj
  refine hand.imp_of_mem ?_
  intro a c ha hc hr
  have hnec := hne c hc
  by_contra hcon
  rcases hr.2 c.1.1 with hbad | hbad
  · exact hbad ⟨hr.1, by omega⟩
  · exact hbad ⟨le_refl _, hnec⟩

theorem interval_unique {v : List ((Nat × Nat) × Nat)}
    (hstrong : v.Pairwise (fun a c => a.1.2 ≤ c.1.1)) (i : Nat)
    {j k : Nat} (hj : j < v.length) (hk : k < v.length)
    (h1 : v[j].1.1 ≤ i ∧ i < v[j].1.2) (h2 : v[k].1.1 ≤ i ∧ i < v[k].1.2) : j = k := by
  by_contra hne'
  rcases Nat.lt_or_ge j k with hlt | hge
  · have := List.pairwise_iff_getElem.mp hstrong j k hj hk hlt
    omega
  · have hlt : k < j := by omega
    have := List.pairwise_iff_getElem.mp hstrong k j hk hj hlt
    omega

/-- Claim C8 (counterexample).  Sorted-by-start plus pairwise disjointness
do not exclude empty intervals, and an empty interval derails the binary
search: with entries `[0,10)↦0` and `[7,7)↦1` (sorted by start, disjoint —
an empty interval is disjoint from everything) the probe at the empty
interval steers the search away from the entry `[0,10)` that contains
`i = 8`, so `get_index_symbol_id` returns `None` although an entry
satisfies `lo ≤ 8 < hi`. -/
theorem c8_counterexample :
    ((QueryDFA.mk 1 0 [true] [] [] []
        [((0, 10), 0), ((7, 7), 1)]).range_to_range_id.Pairwise
      (fun a c => a.1.1 ≤ c.1.1)) ∧
    ((QueryDFA.mk 1 0 [true] [] [] []
        [((0, 10), 0), ((7, 7), 1)]).range_to_range_id.Pairwise
      (fun a c => ∀ n : Nat, ¬(a.1.1 ≤ n ∧ n < a.1.2) ∨ ¬(c.1.1 ≤ n ∧ n < c.1.2))) ∧
    (∃ e ∈ (QueryDFA.mk 1 0 [true] [] [] []
        [((0, 10), 0), ((7, 7), 1)]).range_to_range_id, e.1.1 ≤ 8 ∧ 8 < e.1.2) ∧
    (QueryDFA.mk 1 0 [true] [] [] []
        [((0, 10), 0), ((7, 7), 1)]).getIndexSymbolId 8 = none := by
  refine ⟨by decide, ?_, ⟨((0, 10), 0), by simp, by decide⟩, rfl⟩
  refine List.Pairwise.cons ?_ (List.Pairwise.cons ?_ List.Pairwise.nil)
  · intro c hc n
    rw [List.mem_singleton.mp hc]
    show ¬(0 ≤ n ∧ n < 10) ∨ ¬(7 ≤ n ∧ n < 7)
    omega
  · intro c hc
    exact absurd hc (List.not_mem_nil c)

/-- Claim C8 (amended).  With the missing hypothesis that the stored
intervals are nonempty (which `finalize_ranges` guarantees), binary search
is correct: `get_index_symbol_id i` returns `some id` iff some entry
`((lo, hi), id)` satisfies `lo ≤ i < hi`, and returns `none` when `i` lies
outside every stored interval. -/
theorem c8_amended (d : QueryDFA)
    (hsorted : d.range_to_range_id.Pairwise (fun a c => a.1.1 ≤ c.1.1))
    (hdisj : d.range_to_range_id.Pairwise (fun a c =>
      ∀ n : Nat, ¬(a.1.1 ≤ n ∧ n < a.1.2) ∨ ¬(c.1.1 ≤ n ∧ n < c.1.2)))
    (hne : ∀ e ∈ d.range_to_range_id, e.1.1 < e.1.2) (i : Nat) :
    (∀ id, d.getIndexSymbolId i = some id ↔
      ∃ e ∈ d.range_to_range_id, e.1.1 ≤ i ∧ i < e.1.2 ∧ e.2 = id) ∧
    ((∀ e ∈ d.range_to_range_id, ¬(e.1.1 ≤ i ∧ i < e.1.2)) →
      d.getIndexSymbolId i = none) := by
  have hstrong := ranges_strongly_sorted hsorted hdisj hne
  have hcmp_eq : ∀ e : (Nat × Nat) × Nat,
      (if i < e.1.1 then Ordering.gt else if i ≥ e.1.2 then Ordering.lt
        else Ordering.eq) = .eq ↔ (e.1.1 ≤ i ∧ i < e.1.2) := by
    intro e
    split_ifs <;> simp <;> omega
  have hm1 : ∀ j k, j ≤ k → k < d.range_to_range_id.length →
      (if i < (d.range_to_range_id.getD k default).1.1 then Ordering.gt
        else if i ≥ (d.range_to_range_id.getD k default).1.2 then Ordering.lt
        else Ordering.eq) = .lt →
      (if i < (d.range_to_range_id.getD j default).1.1 then Ordering.gt
        else if i ≥ (d.range_to_range_id.getD j default).1.2 then Ordering.lt
        else Ordering.eq) = .lt := by
    intro j k hjk hk hck
    have hj : j < d.range_to_range_id.length := by omega
    rw [List.getD_eq_getElem _ _ hk] at hck
    rw [List.getD_eq_getElem _ _ hj]
    have hltk : i ≥ d.range_to_range_id[k].1.2 := by
      by_contra hcon
      rcases Nat.lt_or_ge i d.range_to_range_id[k].1.1 with hx | hx
      · rw [if_pos hx] at hck
        exact absurd hck (by simp)
      · rw [if_neg (by omega), if_neg (by omega)] at hck
        exact absurd hck (by simp)
    have hnek := hne _ (List.getElem_mem hk)
    rcases Nat.lt_or_ge j k with hjk' | hjk'
    · have hjend := List.pairwise_iff_getElem.mp hstrong j k hj hk hjk'
      have hnej := hne _ (List.getElem_mem hj)
      rw [if_neg (by omega), if_pos (by omega)]
    · have hjeq : j = k := by omega
      subst hjeq
      rw [if_neg (by omega), if_pos (by omega)]
  have hm2 : ∀ j k, j ≤ k → k < d.range_to_range_id.length →
      (if i < (d.range_to_range_id.getD j default).1.1 then Ordering.gt
        else if i ≥ (d.range_to_range_id.getD j default).1.2 then Ordering.lt
        else Ordering.eq) = .gt →
      (if i < (d.range_to_range_id.getD k default).1.1 then Ordering.gt
        else if i ≥ (d.range_to_range_id.getD k default).1.2 then Ordering.lt
        else Ordering.eq) = .gt := by
    intro j k hjk hk hcj
    have hj : j < d.range_to_range_id.length := by omega
    rw [List.getD_eq_getElem _ _ hj] at hcj
    rw [List.getD_eq_getElem _ _ hk]
    have hgtj : i < d.range_to_range_id[j].1.1 := by
      by_contra hcon
      rcases Nat.lt_or_ge i d.range_to_range_id[j].1.2 with hx | hx
      · rw [if_neg (by omega), if_neg (by omega)] at hcj
        exact absurd hcj (by simp)
      · rw [if_neg (by omega), if_pos (by omega)] at hcj
        exact absurd hcj (by simp)
    rcases Nat.lt_or_ge j k with hjk' | hjk'
    · have hjstart := List.pairwise_iff_getElem.mp hsorted j k hj hk hjk'
      rw [if_pos (by omega)]
    · have hjeq : j = k := by omega
      subst hjeq
      rw [if_pos (by omega)]
  constructor
  · intro id
    constructor
    · intro hsome
      rw [QueryDFA.getIndexSymbolId] at hsome
      rcases hsearch : binarySearchBy d.range_to_range_id
          (fun e => if i < e.1.1 then Ordering.gt
            else if i ≥ e.1.2 then Ordering.lt else Ordering.eq) with _ | m <;>
        rw [hsearch] at hsome
      · exact Option.noConfusion hsome
      · obtain ⟨hm1', hm2', hm3'⟩ := binarySearchGo_some _ _ _ _ _ _ hsearch
        have hmlen : m < d.range_to_range_id.length := hm2'
        rw [List.getD_eq_getElem _ _ hmlen] at hm3'
        rw [hcmp_eq] at hm3'
        refine ⟨d.range_to_range_id[m], List.getElem_mem hmlen, hm3'.1, hm3'.2, ?_⟩
        have hid := Option.some.inj hsome
        rw [List.getD_eq_getElem _ _ hmlen] at hid
        exact hid
    · intro ⟨e, hmem, helo, hehi, heid⟩
      rw [QueryDFA.getIndexSymbolId]
      rcases hsearch : binarySearchBy d.range_to_range_id
          (fun e => if i < e.1.1 then Ordering.gt
            else if i ≥ e.1.2 then Ordering.lt else Ordering.eq) with _ | m
      · exfalso
        obtain ⟨j, hj, hje⟩ := List.mem_iff_getElem.mp hmem
        refine binarySearchGo_none _ _ hm1 hm2 _ _ _ (le_refl _) (by omega)
          hsearch j (by omega) hj ?_
        rw [List.getD_eq_getElem _ _ hj, hcmp_eq, hje]
        exact ⟨helo, hehi⟩
      · obtain ⟨hm1', hm2', hm3'⟩ := binarySearchGo_some _ _ _ _ _ _ hsearch
        have hmlen : m < d.range_to_range_id.length := hm2'
        rw [List.getD_eq_getElem _ _ hmlen, hcmp_eq] at hm3'
        obtain ⟨j, hj, hje⟩ := List.mem_iff_getElem.mp hmem
        have hjm : j = m := interval_unique hstrong i hj hmlen
          (by rw [hje]; exact ⟨helo, hehi⟩) hm3'
        subst hjm
        show some (d.range_to_range_id.getD j ((0, 0), 0)).2 = some id
        rw [List.getD_eq_getElem _ _ hj, hje, heid]
  · intro hout
    rw [QueryDFA.getIndexSymbolId]
    rcases hsearch : binarySearchBy d.range_to_range_id
        (fun e => if i < e.1.1 then Ordering.gt
          else if i ≥ e.1.2 then Ordering.lt else Ordering.eq) with _ | m
    · rfl
    · exfalso
      obtain ⟨hm1', hm2', hm3'⟩ := binarySearchGo_some _ _ _ _ _ _ hsearch
      have hmlen : m < d.range_to_range_id.length := hm2'
      rw [List.getD_eq_getElem _ _ hmlen, hcmp_eq] at hm3'
      exact hout _ (List.getElem_mem hmlen) hm3'

/-- Witness for the amended Claim C8 at the entries `[0,2)↦1`, `[5,7)↦2`
and the index `6`. -/
theorem c8_amended_witness :
    (∀ id, (QueryDFA.mk 1 0 [true] [] [] []
        [((0, 2), 1), ((5, 7), 2)]).getIndexSymbolId 6 = some id ↔
      ∃ e ∈ (QueryDFA.mk 1 0 [true] [] [] []
        [((0, 2), 1), ((5, 7), 2)]).range_to_range_id,
        e.1.1 ≤ 6 ∧ 6 < e.1.2 ∧ e.2 = id) ∧
    ((∀ e ∈ (QueryDFA.mk 1 0 [true] [] [] []
        [((0, 2), 1), ((5, 7), 2)]).range_to_range_id,
        ¬(e.1.1 ≤ 6 ∧ 6 < e.1.2)) →
      (QueryDFA.mk 1 0 [true] [] [] []
        [((0, 2), 1), ((5, 7), 2)]).getIndexSymbolId 6 = none) := by
  refine c8_amended _ (by decide) ?_ (by decide) 6
  refine List.Pairwise.cons ?_ (List.Pairwise.cons ?_ List.Pairwise.nil)
  · intro c hc n
    rw [List.mem_singleton.mp hc]
    show ¬(0 ≤ n ∧ n < 2) ∨ ¬(5 ≤ n ∧ n < 7)
    omega
  · intro c hc
    exact absurd hc (List.not_mem_nil c)

theorem dedupAdjAfter_mem : ∀ (rest : List Nat) (prev y : Nat),
    y ∈ dedupAdjAfter prev rest → y ∈ rest
  | [], _, y, hy => absurd hy (List.not_mem_nil y)
  | z :: rest, prev, y, hy => by
    simp only [dedupAdjAfter] at hy
    by_cases hpz : prev = z
    · rw [if_pos hpz] at hy
      exact List.mem_cons_of_mem z (dedupAdjAfter_mem rest prev y hy)
    · rw [if_neg hpz] at hy
      rcases List.mem_cons.mp hy with rfl | hy'
      · exact List.mem_cons_self y rest
      · exact List.mem_cons_of_mem z (dedupAdjAfter_mem rest z y hy')

theorem dedupAdjAfter_mem_rev : ∀ (rest : List Nat) (prev y : Nat),
    y ∈ rest → y = prev ∨ y ∈ dedupAdjAfter prev rest
  | [], _, y, hy => absurd hy (List.not_mem_nil y)
  | z :: rest, prev, y, hy => by
    simp only [dedupAdjAfter]
    by_cases hpz : prev = z
    · rw [if_pos hpz]
      rcases List.mem_cons.mp hy with rfl | hy'
      · exact Or.inl hpz.symm
      · exact dedupAdjAfter_mem_rev rest prev y hy'
    · rw [if_neg hpz]
      rcases List.mem_cons.mp hy with rfl | hy'
      · exact Or.inr (List.mem_cons_self _ _)
      · rcases dedupAdjAfter_mem_rev rest z y hy' with rfl | hmem
        · exact Or.inr (List.mem_cons_self _ _)
        · exact Or.inr (List.mem_cons_of_mem z hmem)

theorem dedupAdj_mem_rev : ∀ (l : List Nat) (y : Nat), y ∈ l → y ∈ dedupAdj l
  | [], y, hy => absurd hy (List.not_mem_nil y)
  | x :: rest, y, hy => by
    simp only [dedupAdj]
    rcases List.mem_cons.mp hy with rfl | hy'
    · exact List.mem_cons_self _ _
    · rcases dedupAdjAfter_mem_rev rest x y hy' with rfl | hmem
      · exact List.mem_cons_self _ _
      · exact List.mem_cons_of_mem x hmem

theorem dedupAdjAfter_sorted : ∀ (rest : List Nat) (prev : Nat),
    (prev :: rest).Pairwise (· ≤ ·) →
    (prev :: dedupAdjAfter prev rest).Pairwise (· < ·)
  | [], prev, _ => by simp [dedupAdjAfter]
  | z :: rest, prev, h => by
    simp only [dedupAdjAfter]
    obtain ⟨hple, hrest⟩ := List.pairwise_cons.mp h
    by_cases hpz : prev = z
    · rw [if_pos hpz]
      refine dedupAdjAfter_sorted rest prev ?_
      obtain ⟨hzle, hrest'⟩ := List.pairwise_cons.mp hrest
      refine List.pairwise_cons.mpr ⟨?_, hrest'⟩
      intro a ha
      exact hple a (List.mem_cons_of_mem z ha)
    · rw [if_neg hpz]
      have hpltz : prev < z :=
        lt_of_le_of_ne (hple z (List.mem_cons_self z rest)) hpz
      have hz := dedupAdjAfter_sorted rest z hrest
      refine List.pairwise_cons.mpr ⟨?_, hz⟩
      intro a ha
      rcases List.mem_cons.mp ha with rfl | ha'
      · exact hpltz
      · obtain ⟨hzlt, _⟩ := List.pairwise_cons.mp hz
        exact lt_trans hpltz (hzlt a ha')

theorem dedupAdj_sorted : ∀ (l : List Nat), l.Pairwise (· ≤ ·) →
    (dedupAdj l).Pairwise (· < ·)
  | [], _ => List.Pairwise.nil
  | x :: rest, h => dedupAdjAfter_sorted rest x h

theorem pointsFold_acc_mono : ∀ (cs : List (Nat × Nat)) (acc : List Nat) (x : Nat),
    x ∈ acc →
    x ∈ cs.foldl (fun a se => if se.1 < se.2 then a ++ [se.1, se.2] else a) acc
  | [], _, _, hx => hx
  | c :: cs, acc, x, hx => by
    simp only [List.foldl_cons]
    refine pointsFold_acc_mono cs _ x ?_
    dsimp only
    by_cases hc : c.1 < c.2
    · rw [if_pos hc]
      exact List.mem_append_left _ hx
    · rw [if_neg hc]
      exact hx

theorem pointsFold_mem : ∀ (cs : List (Nat × Nat)) (acc : List Nat) (r : Nat × Nat),
    r ∈ cs → r.1 < r.2 →
    r.1 ∈ cs.foldl (fun a se => if se.1 < se.2 then a ++ [se.1, se.2] else a) acc ∧
    r.2 ∈ cs.foldl (fun a se => if se.1 < se.2 then a ++ [se.1, se.2] else a) acc
  | [], _, r, hr, _ => absurd hr (List.not_mem_nil r)
  | c :: cs, acc, r, hr, hne => by
    simp only [List.foldl_cons]
    rcases List.mem_cons.mp hr with rfl | hr'
    · constructor <;>
      · refine pointsFold_acc_mono cs _ _ ?_
        dsimp only
        rw [if_pos hne]
        simp
    · exact pointsFold_mem cs _ r hr' hne

theorem pairwise_lt_mono {ps : List Nat} (h : ps.Pairwise (· < ·))
    {i j : Nat} (hij : i ≤ j) (hi : i < ps.length) (hj : j < ps.length) :
    ps[i] ≤ ps[j] := by
  rcases Nat.lt_or_ge i j with hlt | hge
  · exact le_of_lt (List.pairwise_iff_getElem.mp h i j hi hj hlt)
  · have hieq : i = j := by omega
    subst hieq
    exact le_refl _

theorem zip_windows_pairwise {ps : List Nat} (h : ps.Pairwise (· < ·)) :
    (ps.zip ps.tail).Pairwise (fun p q => p.2 ≤ q.1) := by
  rw [List.pairwise_iff_getElem]
  intro i j hi hj hij
  have hzl : (ps.zip ps.tail).length ≤ ps.tail.length := by
    rw [List.length_zip]
    omega
  have hti : i < ps.tail.length := by omega
  have htj : j < ps.tail.length := by omega
  have hpj : j < ps.length := by
    rw [List.length_tail] at htj
    omega
  have hpi1 : i + 1 < ps.length := by
    rw [List.length_tail] at hti
    omega
  rw [List.getElem_zip, List.getElem_zip, List.getElem_tail]
  show ps[i + 1] ≤ ps[j]
  exact pairwise_lt_mono h (by omega) hpi1 hpj

theorem sorted_straddle : ∀ (ps : List Nat), ps.Pairwise (· < ·) →
    ∀ (s e n : Nat), s ∈ ps → e ∈ ps → s ≤ n → n < e →
    ∃ i, ∃ h : i + 1 < ps.length, ps[i] ≤ n ∧ n < ps[i + 1]
  | [], _, s, _, _, hs, _, _, _ => absurd hs (List.not_mem_nil s)
  | [p], _, s, e, n, hs, he, hsn, hne => by
    rw [List.mem_singleton] at hs he
    subst hs
    subst he
    omega
  | p :: q :: rest, h, s, e, n, hs, he, hsn, hne => by
    by_cases hn : n < q
    · have hsp : s = p := by
        rcases List.mem_cons.mp hs with rfl | hs'
        · rfl
        · exfalso
          have hqs : q ≤ s := by
            rcases List.mem_cons.mp hs' with rfl | hs''
            · exact le_refl _
            · exact le_of_lt ((List.pairwise_cons.mp
                (List.pairwise_cons.mp h).2).1 s hs'')
          omega
      refine ⟨0, by simp only [List.length_cons]; omega, ?_, ?_⟩
      · show p ≤ n
        omega
      · show n < q
        omega
    · have htail : (q :: rest).Pairwise (· < ·) := (List.pairwise_cons.mp h).2
      have he' : e ∈ q :: rest := by
        rcases List.mem_cons.mp he with rfl | he'
        · exfalso
          have hpq : e < q := (List.pairwise_cons.mp h).1 q (List.mem_cons_self q rest)
          omega
        · exact he'
      obtain ⟨i, hlen, h1, h2⟩ := sorted_straddle (q :: rest) htail q e n
        (List.mem_cons_self q rest) he' (by omega) hne
      refine ⟨i + 1, ?_, ?_, ?_⟩
      · simp only [List.length_cons] at hlen ⊢
        omega
      · rw [List.getElem_cons_succ]
        exact h1
      · rw [List.getElem_cons_succ]
        exact h2

theorem assignFold_snd_map : ∀ (ws : List (Nat × Nat)) (alph : List TransitionLabel)
    (rs : List ((Nat × Nat) × Nat)),
    ((ws.foldl (fun (acc : List TransitionLabel × List ((Nat × Nat) × Nat)) r =>
        (acc.1 ++ [.range r.1 r.2], acc.2 ++ [(r, acc.1.length)])) (alph, rs)).2).map
      Prod.fst = rs.map Prod.fst ++ ws
  | [], _, _ => by simp
  | w :: ws, alph, rs => by
    simp only [List.foldl_cons]
    refine Eq.trans (assignFold_snd_map ws (alph ++ [.range w.1 w.2])
      (rs ++ [(w, alph.length)])) ?_
    simp

/-- The structural invariants established by `finalize_ranges` when it runs
on a builder with an empty `range_to_range_id` (as in `build_dfa`): entries
sorted by interval start, pairwise disjoint, nonempty, and jointly covering
every integer lying in some collected raw interval. -/
theorem finalizeRanges_invariants (b : DFABuilder) (hrs : b.range_to_range_id = []) :
    (finalizeRanges b).range_to_range_id.Pairwise (fun a c => a.1.1 ≤ c.1.1) ∧
    (finalizeRanges b).range_to_range_id.Pairwise (fun a c =>
      ∀ n : Nat, ¬(a.1.1 ≤ n ∧ n < a.1.2) ∨ ¬(c.1.1 ≤ n ∧ n < c.1.2)) ∧
    (∀ e ∈ (finalizeRanges b).range_to_range_id, e.1.1 < e.1.2) ∧
    (∀ n : Nat, (∃ r ∈ b.collected_ranges, r.1 ≤ n ∧ n < r.2) →
      ∃ e ∈ (finalizeRanges b).range_to_range_id, e.1.1 ≤ n ∧ n < e.1.2) := by
  have hfr : (finalizeRanges b).range_to_range_id
      = (((((dedupAdj ((b.collected_ranges.foldl
              (fun acc se => if se.1 < se.2 then acc ++ [se.1, se.2] else acc)
              []).insertionSort (· ≤ ·))).zip
            (dedupAdj ((b.collected_ranges.foldl
              (fun acc se => if se.1 < se.2 then acc ++ [se.1, se.2] else acc)
              []).insertionSort (· ≤ ·))).tail).filter
          (fun p => p.1 < p.2)).foldl
          (fun (acc : List TransitionLabel × List ((Nat × Nat) × Nat)) r =>
            (acc.1 ++ [.range r.1 r.2], acc.2 ++ [(r, acc.1.length)]))
          (b.alphabet, b.range_to_range_id)).2).insertionSort
        (fun a c => a.1.1 ≤ c.1.1) := rfl
  rw [hfr, hrs]
  set points0 := b.collected_ranges.foldl
    (fun acc se => if se.1 < se.2 then acc ++ [se.1, se.2] else acc) [] with hpoints0
  set ps := dedupAdj (points0.insertionSort (· ≤ ·)) with hpsdef
  set ws := (ps.zip ps.tail).filter (fun p => p.1 < p.2) with hwsdef
  set asg := ws.foldl
    (fun (acc : List TransitionLabel × List ((Nat × Nat) × Nat)) r =>
      (acc.1 ++ [.range r.1 r.2], acc.2 ++ [(r, acc.1.length)])) (b.alphabet, [])
    with hasg
  have hsorted0 : (points0.insertionSort (· ≤ ·)).Pairwise (· ≤ ·) :=
    List.sorted_insertionSort _ _
  have hps : ps.Pairwise (· < ·) := by
    rw [hpsdef]
    exact dedupAdj_sorted _ hsorted0
  have hmap : asg.2.map Prod.fst = ws := by
    rw [hasg]
    refine Eq.trans (assignFold_snd_map ws b.alphabet []) ?_
    simp
  refine ⟨?_, ?_, ?_, ?_⟩
  · exact @List.sorted_insertionSort _ (fun a c => a.1.1 ≤ c.1.1)
      (fun a c => Nat.decLe a.1.1 c.1.1)
      ⟨fun a c => Nat.le_total a.1.1 c.1.1⟩
      ⟨fun _ _ _ h1 h2 => Nat.le_trans h1 h2⟩ asg.2
  · have hwpair : ws.Pairwise (fun p q : Nat × Nat => p.2 ≤ q.1) := by
      rw [hwsdef]
      exact List.Pairwise.sublist (List.filter_sublist _) (zip_windows_pairwise hps)
    have hdisj_ws : ws.Pairwise (fun p q : Nat × Nat =>
        ∀ m : Nat, ¬(p.1 ≤ m ∧ m < p.2) ∨ ¬(q.1 ≤ m ∧ m < q.2)) := by
      refine hwpair.imp ?_
      intro a c hac m
      omega
    have h1 : (asg.2.map Prod.fst).Pairwise (fun p q : Nat × Nat =>
        ∀ m : Nat, ¬(p.1 ≤ m ∧ m < p.2) ∨ ¬(q.1 ≤ m ∧ m < q.2)) := by
      rw [hmap]
      exact hdisj_ws
    have hent := List.pairwise_map.mp h1
    exact ((List.perm_insertionSort _ _).pairwise_iff
      (fun h m => Or.symm (h m))).mpr hent
  · intro e he
    have he' : e ∈ asg.2 := (List.perm_insertionSort _ _).mem_iff.mp he
    have hfst : e.1 ∈ ws := by
      rw [← hmap]
      exact List.mem_map.mpr ⟨e, he', rfl⟩
    rw [hwsdef] at hfst
    have := List.mem_filter.mp hfst
    simpa using this.2
  · intro n hex
    obtain ⟨r, hrmem, hr1, hr2⟩ := hex
    have hrne : r.1 < r.2 := by omega
    obtain ⟨hp1, hp2⟩ := pointsFold_mem b.collected_ranges [] r hrmem hrne
    have hp1' : r.1 ∈ ps := by
      rw [hpsdef]
      exact dedupAdj_mem_rev _ _ ((List.perm_insertionSort _ _).mem_iff.mpr hp1)
    have hp2' : r.2 ∈ ps := by
      rw [hpsdef]
      exact dedupAdj_mem_rev _ _ ((List.perm_insertionSort _ _).mem_iff.mpr hp2)
    obtain ⟨i, hilen, hle, hlt⟩ := sorted_straddle ps hps r.1 r.2 n hp1' hp2' hr1 hr2
    have hzlen : i < (ps.zip ps.tail).length := by
      rw [List.length_zip, List.length_tail]
      omega
    have hzget : (ps.zip ps.tail)[i] = (ps[i], ps[i + 1]) := by
      rw [List.getElem_zip, List.getElem_tail]
    have hwmem : (ps[i], ps[i + 1]) ∈ ws := by
      rw [hwsdef]
      refine List.mem_filter.mpr ⟨?_, ?_⟩
      · rw [← hzget]
        exact List.getElem_mem hzlen
      · exact decide_eq_true
          (List.pairwise_iff_getElem.mp hps i (i + 1) (by omega) (by omega) (by omega))
    have hmem2 : (ps[i], ps[i + 1]) ∈ asg.2.map Prod.fst := by
      rw [hmap]
      exact hwmem
    obtain ⟨e, heasg, hefst⟩ := List.mem_map.mp hmem2
    refine ⟨e, (List.perm_insertionSort _ _).mem_iff.mpr heasg, ?_, ?_⟩
    · rw [hefst]
      exact hle
    · rw [hefst]
      exact hlt

/-- Claim C5 (counterexample).  The claim asserts the union of the compiled
intervals covers "every integer endpoint named by the query", but the
intervals are half-open: for the query `[0:5]` the named endpoint `5` lies
in no compiled interval. -/
theorem c5_counterexample :
    ∃ d, buildDFA (Query.range (some 0) (some 5)) = some d ∧
      collectRanges (Query.range (some 0) (some 5)) = [(0, 5)] ∧
      d.range_to_range_id = [((0, 5), 1)] ∧
      d.range_to_range_id.all
        (fun e => !(decide (e.1.1 ≤ 5) && decide (5 < e.1.2))) = true :=
  ⟨_, rfl, rfl, rfl, rfl⟩

/-- Claim C5 (amended).  For every query AST that compiles, the compiled
DFA's `range_to_range_id` entries are sorted by start, pairwise disjoint,
nonempty, half-open intervals, and their union contains every integer that
lies in some index or range mentioned by the query (named endpoints
themselves are covered only when they lie inside some mentioned
interval). -/
theorem c5_amended (q : Query) (dfa : QueryDFA) (h : buildDFA q = some dfa) :
    dfa.range_to_range_id.Pairwise (fun a c => a.1.1 ≤ c.1.1) ∧
    dfa.range_to_range_id.Pairwise (fun a c =>
      ∀ n : Nat, ¬(a.1.1 ≤ n ∧ n < a.1.2) ∨ ¬(c.1.1 ≤ n ∧ n < c.1.2)) ∧
    (∀ e ∈ dfa.range_to_range_id, e.1.1 < e.1.2) ∧
    (∀ n : Nat, (∃ r ∈ collectRanges q, r.1 ≤ n ∧ n < r.2) →
      ∃ e ∈ dfa.range_to_range_id, e.1.1 ≤ n ∧ n < e.1.2) := by
  by_cases hq : q = Query.sequence []
  · subst hq
    injection h with hd
    subst hd
    refine ⟨List.Pairwise.nil, List.Pairwise.nil, by simp, ?_⟩
    intro n hex
    obtain ⟨r, hr, _⟩ := hex
    exact absurd hr (List.not_mem_nil r)
  · rw [buildDFA_ne q hq, buildDFAGeneral] at h
    rcases hb : extractSymbols DFABuilder.new q with _ | b <;> rw [hb] at h
    · exact absurd h (by simp)
    rcases hn : QueryNFA.fromQuery q with _ | nfa <;>
      simp only [Option.bind_eq_bind, Option.none_bind, Option.some_bind, hn] at h
    · exact absurd h (by simp)
    have hdfa : dfa = determinizeNFA (finalizeRanges b) nfa := by
      simpa [Option.pure_def] using h.symm
    obtain ⟨hext1, hext2, hext3, hext4⟩ := extractSymbols_spec DFABuilder.new q b hb
    have hrs : b.range_to_range_id = [] := hext3
    have hcol : b.collected_ranges = collectRanges q := by
      simpa [DFABuilder.new] using hext2
    obtain ⟨h1, h2, h3, h4⟩ := finalizeRanges_invariants b hrs
    have hdr : dfa.range_to_range_id = (finalizeRanges b).range_to_range_id := by
      rw [hdfa]
      rfl
    rw [hdr]
    refine ⟨h1, h2, h3, ?_⟩
    intro n hex
    refine h4 n ?_
    rw [hcol]
    exact hex

/-- Witness for the amended Claim C5 at the concrete query `[2:4]`. -/
theorem c5_amended_witness :
    ∃ dfa, buildDFA (Query.range (some 2) (some 4)) = some dfa ∧
      (dfa.range_to_range_id.Pairwise (fun a c => a.1.1 ≤ c.1.1) ∧
      dfa.range_to_range_id.Pairwise (fun a c =>
        ∀ n : Nat, ¬(a.1.1 ≤ n ∧ n < a.1.2) ∨ ¬(c.1.1 ≤ n ∧ n < c.1.2)) ∧
      (∀ e ∈ dfa.range_to_range_id, e.1.1 < e.1.2) ∧
      (∀ n : Nat, (∃ r ∈ collectRanges (Query.range (some 2) (some 4)),
          r.1 ≤ n ∧ n < r.2) →
        ∃ e ∈ dfa.range_to_range_id, e.1.1 ≤ n ∧ n < e.1.2)) := by
  obtain ⟨dfa, hd⟩ : ∃ d, buildDFA (Query.range (some 2) (some 4)) = some d := ⟨_, rfl⟩
  exact ⟨dfa, hd, c5_amended _ dfa hd⟩

/-- Claim C2 (code bug).  The claim states that `parse(parse(s).toString())`
is structurally equal to `parse(s)` for every accepted query text `s`.  It
fails twice over.  Structurally: a parenthesised group nests an extra
`Sequence` that `Display` silently flattens, so `"(foo)"` parses to
`Sequence([Sequence([Field foo])])`, prints as `"foo"`, and reparses to the
structurally different `Sequence([Field foo])`.  Semantically: the
`.`-elision of the `Display` sequence arm wrongly includes `FieldWildcard`
among the array accessors, so `"foo.*"` (field then wildcard-field step)
prints as `"foo*"`, which reparses as the Kleene star of `foo` — a
different language, as the two `find` runs on `{"foo":{"bar":1}}` show. -/
theorem c2_roundtrip_diverges :
    parseQuery "(foo)" = some (Query.sequence [Query.sequence [Query.field "foo"]]) ∧
    displayQuery (Query.sequence [Query.sequence [Query.field "foo"]]) = "foo" ∧
    parseQuery "foo" = some (Query.sequence [Query.field "foo"]) ∧
    Query.sequence [Query.sequence [Query.field "foo"]] ≠
      Query.sequence [Query.field "foo"] ∧
    parseQuery "foo.*" =
      some (Query.sequence [Query.field "foo", Query.fieldWildcard]) ∧
    displayQuery (Query.sequence [Query.field "foo", Query.fieldWildcard]) = "foo*" ∧
    parseQuery "foo*" =
      some (Query.sequence [Query.kleeneStar (Query.field "foo")]) ∧
    find (Value.obj [("foo", Value.obj [("bar", Value.num 1)])])
        (Query.sequence [Query.field "foo", Query.fieldWildcard]) =
      some [⟨[PathType.field "foo", PathType.field "bar"], Value.num 1⟩] ∧
    find (Value.obj [("foo", Value.obj [("bar", Value.num 1)])])
        (Query.sequence [Query.kleeneStar (Query.field "foo")]) =
      some [⟨[], Value.obj [("foo", Value.obj [("bar", Value.num 1)])]⟩,
        ⟨[PathType.field "foo"], Value.obj [("bar", Value.num 1)]⟩] := by
  refine ⟨rfl, rfl, rfl, ?_, rfl, rfl, rfl, rfl, rfl⟩
  intro h
  simp at h

/-- Claim C3 (code bug).  The claim states that a quoted field parses to a
`Query::Field` holding the unescaped contents of the quotes.  `parse_field`
(`src/query/parser.rs`) instead stores the raw matched text of the `field`
rule — for a quoted field, the quotes and the escape backslashes included —
and no unescaping of `\"`/`\\` exists anywhere in the parser.  So
`paths."/activities"` parses to a field literally named `"/activities"`
(with quotes), under which the spec's S6 example finds no match, while the
claimed field name `/activities` finds exactly the expected one; and the
escaped name `"a\"b"` keeps its backslash instead of unescaping to
`a"b`. -/
theorem c3_quoted_field_diverges :
    parseQuery "paths.\"/activities\"" =
      some (Query.sequence [Query.field "paths", Query.field "\"/activities\""]) ∧
    "\"/activities\"" ≠ "/activities" ∧
    find (Value.obj [("paths", Value.obj [("/activities",
          Value.obj [("get", Value.str "list")])])])
        (Query.sequence [Query.field "paths", Query.field "\"/activities\""]) =
      some [] ∧
    find (Value.obj [("paths", Value.obj [("/activities",
          Value.obj [("get", Value.str "list")])])])
        (Query.sequence [Query.field "paths", Query.field "/activities"]) =
      some [⟨[PathType.field "paths", PathType.field "/activities"],
        Value.obj [("get", Value.str "list")]⟩] ∧
    parseQuery "\"a\\\"b\"" =
      some (Query.sequence [Query.field "\"a\\\"b\""]) := by
  refine ⟨rfl, ?_, rfl, rfl, rfl⟩
  decide

theorem getD_set_bool (l : List Bool) (i r : Nat) (b : Bool) :
    (l.set i b).getD r false = if i = r ∧ i < l.length then b else l.getD r false := by
  rw [List.getD_eq_getElem?_getD, List.getD_eq_getElem?_getD, List.getElem?_set]
  by_cases h1 : i = r
  · subst h1
    by_cases h2 : i < l.length
    · rw [if_pos rfl, if_pos h2, if_pos ⟨rfl, h2⟩]
      rfl
    · rw [if_pos rfl, if_neg h2, if_neg (fun hc => h2 hc.2),
        List.getElem?_eq_none (by omega)]
  · rw [if_neg h1, if_neg (fun hc => h1 hc.1)]

theorem getD_replicate_false (n r : Nat) : (List.replicate n false).getD r false = false := by
  rw [List.getD_eq_getElem?_getD, List.getElem?_replicate]
  by_cases h : r < n <;> simp [h]

theorem setFold_length (C : Nat × Nat → Bool) :
    ∀ (es : List (Nat × Nat)) (acc : List Bool),
    (es.foldl (fun acc2 e => if C e then acc2.set e.2 true else acc2) acc).length
      = acc.length
  | [], _ => rfl
  | e :: es, acc => by
    simp only [List.foldl_cons]
    rw [setFold_length C es]
    by_cases hc : C e
    · rw [if_pos hc, List.length_set]
    · rw [if_neg hc]

theorem setFold_getD (C : Nat × Nat → Bool) :
    ∀ (es : List (Nat × Nat)) (acc : List Bool) (r : Nat),
    ((es.foldl (fun acc2 e => if C e then acc2.set e.2 true else acc2) acc).getD r false
        = true
      ↔ (acc.getD r false = true ∨ (r < acc.length ∧ ∃ e ∈ es, C e = true ∧ e.2 = r)))
  | [], acc, r => by simp
  | e :: es, acc, r => by
    simp only [List.foldl_cons]
    rw [setFold_getD C es _ r]
    by_cases hc : C e
    · rw [if_pos hc, getD_set_bool, List.length_set]
      by_cases h1 : e.2 = r ∧ e.2 < acc.length
      · rw [if_pos h1]
        exact ⟨fun _ => Or.inr ⟨h1.1 ▸ h1.2, e, List.mem_cons_self _ _, hc, h1.1⟩,
          fun _ => Or.inl rfl⟩
      · rw [if_neg h1]
        constructor
        · rintro (h | ⟨hr, x, hx, hcx, hxr⟩)
          · exact Or.inl h
          · exact Or.inr ⟨hr, x, List.mem_cons_of_mem _ hx, hcx, hxr⟩
        · rintro (h | ⟨hr, x, hx, hcx, hxr⟩)
          · exact Or.inl h
          · rcases List.mem_cons.mp hx with rfl | hx'
            · exact absurd ⟨hxr, hxr ▸ hr⟩ h1
            · exact Or.inr ⟨hr, x, hx', hcx, hxr⟩
    · rw [if_neg hc]
      constructor
      · rintro (h | ⟨hr, x, hx, hcx, hxr⟩)
        · exact Or.inl h
        · exact Or.inr ⟨hr, x, List.mem_cons_of_mem _ hx, hcx, hxr⟩
      · rintro (h | ⟨hr, x, hx, hcx, hxr⟩)
        · exact Or.inl h
        · rcases List.mem_cons.mp hx with rfl | hx'
          · rw [hcx] at hc
            exact absurd rfl hc
          · exact Or.inr ⟨hr, x, hx', hcx, hxr⟩

theorem nextFold_length (nfa : QueryNFA) (cur : List Bool) (sym : TransitionLabel) :
    ∀ (ps : List Nat) (acc : List Bool),
    (ps.foldl
        (fun acc p =>
          if cur.getD p false then
            (nfa.transitions.getD p []).foldl
              (fun acc2 e =>
                if coversLabel (nfa.pos_to_label.getD e.1 .other) sym then
                  acc2.set e.2 true
                else acc2)
              acc
          else acc)
        acc).length = acc.length
  | [], _ => rfl
  | p :: ps, acc => by
    simp only [List.foldl_cons]
    rw [nextFold_length nfa cur sym ps]
    by_cases hc : cur.getD p false
    · rw [if_pos hc, setFold_length]
    · rw [if_neg hc]

theorem nextNFAStates_length (nfa : QueryNFA) (cur : List Bool) (sym : TransitionLabel) :
    (nextNFAStates nfa cur sym).length = nfa.num_states := by
  rw [nextNFAStates, nextFold_length, List.length_replicate]

theorem nextFold_getD (nfa : QueryNFA) (cur : List Bool) (sym : TransitionLabel) :
    ∀ (ps : List Nat) (acc : List Bool) (r : Nat),
    ((ps.foldl
        (fun acc p =>
          if cur.getD p false then
            (nfa.transitions.getD p []).foldl
              (fun acc2 e =>
                if coversLabel (nfa.pos_to_label.getD e.1 .other) sym then
                  acc2.set e.2 true
                else acc2)
              acc
          else acc)
        acc).getD r false = true
      ↔ (acc.getD r false = true ∨ (r < acc.length ∧ ∃ p ∈ ps,
          cur.getD p false = true ∧ ∃ e ∈ nfa.transitions.getD p [],
            coversLabel (nfa.pos_to_label.getD e.1 .other) sym = true ∧ e.2 = r)))
  | [], acc, r => by simp
  | p :: ps, acc, r => by
    simp only [List.foldl_cons]
    rw [nextFold_getD nfa cur sym ps _ r]
    by_cases hc : cur.getD p false
    · rw [if_pos hc, setFold_getD, setFold_length]
      constructor
      · rintro ((h | ⟨hr, e, he, hce, her⟩) | ⟨hr, x, hx, hcx, e, he, hce, her⟩)
        · exact Or.inl h
        · exact Or.inr ⟨hr, p, List.mem_cons_self _ _, hc, e, he, hce, her⟩
        · exact Or.inr ⟨hr, x, List.mem_cons_of_mem _ hx, hcx, e, he, hce, her⟩
      · rintro (h | ⟨hr, x, hx, hcx, e, he, hce, her⟩)
        · exact Or.inl (Or.inl h)
        · rcases List.mem_cons.mp hx with rfl | hx'
          · exact Or.inl (Or.inr ⟨hr, e, he, hce, her⟩)
          · exact Or.inr ⟨hr, x, hx', hcx, e, he, hce, her⟩
    · rw [if_neg hc]
      constructor
      · rintro (h | ⟨hr, x, hx, hcx, e, he, hce, her⟩)
        · exact Or.inl h
        · exact Or.inr ⟨hr, x, List.mem_cons_of_mem _ hx, hcx, e, he, hce, her⟩
      · rintro (h | ⟨hr, x, hx, hcx, e, he, hce, her⟩)
        · exact Or.inl h
        · rcases List.mem_cons.mp hx with rfl | hx'
          · rw [hcx] at hc
            exact absurd rfl hc
          · exact Or.inr ⟨hr, x, hx', hcx, e, he, hce, her⟩

theorem nextNFAStates_getD (nfa : QueryNFA) (cur : List Bool) (sym : TransitionLabel)
    (r : Nat) :
    ((nextNFAStates nfa cur sym).getD r false = true ↔
      (r < nfa.num_states ∧ ∃ p ∈ List.range nfa.num_states,
        cur.getD p false = true ∧ ∃ e ∈ nfa.transitions.getD p [],
          coversLabel (nfa.pos_to_label.getD e.1 .other) sym = true ∧ e.2 = r)) := by
  rw [nextNFAStates, nextFold_getD, getD_replicate_false, List.length_replicate]
  simp

theorem nextNFAStates_empty (nfa : QueryNFA) (sym : TransitionLabel) {cur : List Bool}
    (h : ∀ p, cur.getD p false = false) (r : Nat) :
    (nextNFAStates nfa cur sym).getD r false = false := by
  cases hb : (nextNFAStates nfa cur sym).getD r false with
  | false => rfl
  | true =>
    obtain ⟨_, p, _, hp, _⟩ := (nextNFAStates_getD nfa cur sym r).mp hb
    rw [h p] at hp
    exact absurd hp (by simp)

theorem iterNext_empty (alphabet : List TransitionLabel) (nfa : QueryNFA) :
    ∀ (w : List Nat) (cur : List Bool), (∀ p, cur.getD p false = false) →
    ∀ r, (iterNext alphabet nfa cur w).getD r false = false
  | [], _, h, r => h r
  | σ :: w, cur, h, r => by
    simp only [iterNext]
    exact iterNext_empty alphabet nfa w _
      (fun p => nextNFAStates_empty nfa _ h p) r

theorem hasAcceptingState_iff (nfa : QueryNFA) (s : List Bool) :
    (hasAcceptingState nfa s = true ↔
      ∃ i, i < s.length ∧ s.getD i false = true ∧
        nfa.is_accepting.getD i false = true) := by
  rw [hasAcceptingState, List.any_eq_true]
  constructor
  · rintro ⟨ib, hmem, hb⟩
    rw [List.mem_enum_iff_getElem?] at hmem
    have hlt : ib.1 < s.length := by
      by_contra hcon
      rw [List.getElem?_eq_none (by omega)] at hmem
      exact Option.noConfusion hmem
    have hb' := Bool.and_eq_true_iff.mp hb
    refine ⟨ib.1, hlt, ?_, hb'.2⟩
    rw [List.getD_eq_getElem?_getD, hmem]
    simpa using hb'.1
  · rintro ⟨i, hlt, hbit, hacc⟩
    refine ⟨(i, true), ?_, by simpa using hacc⟩
    rw [List.mem_enum_iff_getElem?]
    rw [List.getD_eq_getElem?_getD] at hbit
    rcases hg : s[i]? with _ | b
    · rw [hg] at hbit
      exact absurd hbit (by simp)
    · rw [hg] at hbit
      rw [Option.getD_some] at hbit
      rw [hbit]

theorem startSetOf_length (nfa : QueryNFA) :
    (startSetOf nfa).length = nfa.num_states := by
  rw [startSetOf, List.length_set, List.length_replicate]

theorem startSetOf_getD (nfa : QueryNFA) (p : Nat) :
    ((startSetOf nfa).getD p false = true ↔
      p = nfa.start_state ∧ nfa.start_state < nfa.num_states) := by
  rw [startSetOf, getD_set_bool, List.length_replicate]
  by_cases h : nfa.start_state = p ∧ nfa.start_state < nfa.num_states
  · rw [if_pos h]
    simp [h.1.symm, h.2]
  · rw [if_neg h, getD_replicate_false]
    constructor
    · intro hb
      exact absurd hb (by simp)
    · intro hc
      exact absurd ⟨hc.1.symm, hc.2⟩ h

theorem hasAcceptingState_startSet (nfa : QueryNFA)
    (h : nfa.start_state < nfa.num_states) :
    hasAcceptingState nfa (startSetOf nfa) =
      nfa.is_accepting.getD nfa.start_state false := by
  cases hh : hasAcceptingState nfa (startSetOf nfa) with
  | true =>
    obtain ⟨i, hlen, hbit, hia⟩ := (hasAcceptingState_iff nfa _).mp hh
    obtain ⟨rfl, _⟩ := (startSetOf_getD nfa i).mp hbit
    exact hia.symm
  | false =>
    cases hacc : nfa.is_accepting.getD nfa.start_state false with
    | false => rfl
    | true =>
      have := (hasAcceptingState_iff nfa (startSetOf nfa)).mpr
        ⟨nfa.start_state, by rw [startSetOf_length]; exact h,
          (startSetOf_getD nfa _).mpr ⟨rfl, h⟩, hacc⟩
      rw [hh] at this
      exact this

theorem states_card_bound {l : List (List Bool)} {n : Nat}
    (hlen : ∀ s ∈ l, s.length = n) (hnd : l.Nodup) : l.length ≤ 2 ^ n := by
  have hmap : (l.map (fun s (i : Fin n) => s.getD i.val false)).Nodup := by
    refine List.Nodup.map_on ?_ hnd
    intro x hx y hy hxy
    refine List.ext_getElem ?_ ?_
    · rw [hlen x hx, hlen y hy]
    · intro k h1 h2
      have hk : k < n := by
        rw [hlen x hx] at h1
        exact h1
      have hfun := congrFun hxy ⟨k, hk⟩
      rw [List.getD_eq_getElem?_getD, List.getD_eq_getElem?_getD,
        List.getElem?_eq_getElem h1, List.getElem?_eq_getElem h2] at hfun
      simpa using hfun
  have hcard := hmap.length_le_card
  rw [List.length_map] at hcard
  calc l.length ≤ Fintype.card (Fin n → Bool) := hcard
  _ = 2 ^ n := by rw [Fintype.card_fun, Fintype.card_bool, Fintype.card_fin]

theorem getD_set_any {α : Type _} (l : List α) (i r : Nat) (a dflt : α) :
    (l.set i a).getD r dflt = if i = r ∧ i < l.length then a else l.getD r dflt := by
  rw [List.getD_eq_getElem?_getD, List.getD_eq_getElem?_getD, List.getElem?_set]
  by_cases h1 : i = r
  · subst h1
    by_cases h2 : i < l.length
    · rw [if_pos rfl, if_pos h2, if_pos ⟨rfl, h2⟩]
      rfl
    · rw [if_pos rfl, if_neg h2, if_neg (fun hc => h2 hc.2),
        List.getElem?_eq_none (by omega)]
  · rw [if_neg h1, if_neg (fun hc => h1 hc.1)]

theorem getD_set_self {α : Type _} (l : List α) (i : Nat) (a dflt : α)
    (h : i < l.length) : (l.set i a).getD i dflt = a := by
  rw [getD_set_any, if_pos ⟨rfl, h⟩]

theorem getD_set_ne {α : Type _} (l : List α) (i r : Nat) (a dflt : α)
    (h : i ≠ r) : (l.set i a).getD r dflt = l.getD r dflt := by
  rw [getD_set_any, if_neg (fun hc => h hc.1)]

theorem setTrans_getD_self (t : List (List (Option Nat))) (i j v : Nat)
    (h : i < t.length) : (setTrans t i j v).getD i [] = (t.getD i []).set j (some v) := by
  rw [setTrans, getD_set_self _ _ _ _ h]

theorem setTrans_getD_ne (t : List (List (Option Nat))) (i j v k : Nat)
    (h : k ≠ i) : (setTrans t i j v).getD k [] = t.getD k [] := by
  rw [setTrans, getD_set_ne _ _ _ _ _ (fun hc => h hc.symm)]

theorem getD_mem {α : Type _} {l : List α} {i : Nat} (dflt : α)
    (h : i < l.length) : l.getD i dflt ∈ l := by
  rw [List.getD_eq_getElem _ _ h]
  exact List.getElem_mem h

theorem RowCorrectAt_append {alphabet : List TransitionLabel} {nfa : QueryNFA}
    {states : List (List Bool)} {row : List (Option Nat)} {s : List Bool} {σ : Nat}
    (ext : List (List Bool))
    (h : RowCorrectAt alphabet nfa states row s σ) :
    RowCorrectAt alphabet nfa (states ++ ext) row s σ := by
  rw [RowCorrectAt] at h ⊢
  by_cases hany : (nextNFAStates nfa s (alphabet.getD σ .other)).any id = true
  · rw [if_pos hany] at h ⊢
    obtain ⟨j, hj, he, hs⟩ := h
    refine ⟨j, by rw [List.length_append]; omega, he, ?_⟩
    rw [List.getD_append _ _ _ _ hj]
    exact hs
  · rw [if_neg hany] at h ⊢
    exact h

theorem processStep_mid {alphabet : List TransitionLabel} {nfa : QueryNFA}
    {st0 : DetState} {s : List Bool} {d : Nat} {c : Nat} {st1 : DetState}
    (hd : d < st0.dfa_states.length)
    (hmid : DetMid alphabet nfa st0 s d c st1) (hc : c < alphabet.length) :
    DetMid alphabet nfa st0 s d (c + 1)
      (let next := nextNFAStates nfa s (alphabet.getD c .other)
       if next.any id then
        match st1.dfa_states.findIdx? (· == next) with
        | some j =>
          { st1 with transitions := setTrans st1.transitions d c j }
        | none =>
          let j := st1.dfa_states.length
          { queue := st1.queue ++ [next],
            dfa_states := st1.dfa_states ++ [next],
            transitions :=
              setTrans st1.transitions d c j ++
                [List.replicate alphabet.length none],
            is_accepting := st1.is_accepting ++ [hasAcceptingState nfa next] }
       else st1) := by
  obtain ⟨⟨ext1, hext_s, hext_q⟩, hlt, hla, hsl, hnd, hac, hor, hdl, hdd, hdt⟩ := hmid
  have hd1 : d < st1.dfa_states.length := by
    rw [hext_s, List.length_append]
    omega
  have hdt1 : d < st1.transitions.length := by
    rw [hlt]
    exact hd1
  dsimp only
  by_cases hany : (nextNFAStates nfa s (alphabet.getD c .other)).any id = true
  · rw [if_pos hany]
    rcases hfind : st1.dfa_states.findIdx?
        (· == nextNFAStates nfa s (alphabet.getD c .other)) with _ | j
    · have hnotmem : nextNFAStates nfa s (alphabet.getD c .other) ∉ st1.dfa_states := by
        rw [List.findIdx?_eq_none_iff] at hfind
        intro hmem
        have h2 := hfind _ hmem
        rw [beq_eq_false_iff_ne] at h2
        exact h2 rfl
      refine ⟨⟨ext1 ++ [nextNFAStates nfa s (alphabet.getD c .other)], ?_, ?_⟩,
        ?_, ?_, ?_, ?_, ?_, ?_, ?_, ?_, ?_⟩
      · dsimp only
        rw [hext_s, List.append_assoc]
      · dsimp only
        rw [hext_q, List.append_assoc]
      · dsimp only
        rw [List.length_append, List.length_append, setTrans_length, hlt]
        rfl
      · dsimp only
        rw [List.length_append, List.length_append, hla]
        rfl
      · dsimp only
        intro x hx
        rcases List.mem_append.mp hx with hx' | hx'
        · exact hsl x hx'
        · rw [List.mem_singleton.mp hx']
          exact nextNFAStates_length nfa s _
      · dsimp only
        rw [List.nodup_append]
        refine ⟨hnd, List.nodup_singleton _, ?_⟩
        intro a ha hb
        rw [List.mem_singleton.mp hb] at ha
        exact hnotmem ha
      · dsimp only
        intro i hi
        rw [List.length_append, List.length_singleton] at hi
        rcases Nat.lt_or_ge i st1.dfa_states.length with hi' | hi'
        · rw [List.getD_append _ _ _ _ (by rw [hla]; exact hi'),
            List.getD_append _ _ _ _ hi']
          exact hac i hi'
        · have hieq : i = st1.dfa_states.length := by omega
          subst hieq
          rw [List.getD_append_right _ _ _ _ (by rw [hla]),
            List.getD_append_right _ _ _ _ (le_refl _), hla, Nat.sub_self]
          rfl
      · dsimp only
        intro i hi hne
        rw [List.length_append, List.length_singleton] at hi
        rcases Nat.lt_or_ge i st1.dfa_states.length with hi' | hi'
        · rw [List.getD_append _ _ _ _ (by rw [setTrans_length, hlt]; exact hi'),
            setTrans_getD_ne _ _ _ _ _ hne]
          exact hor i hi' hne
        · have hieq : i = st1.dfa_states.length := by omega
          subst hieq
          rw [List.getD_append_right _ _ _ _ (by rw [setTrans_length, hlt]),
            setTrans_length, hlt, Nat.sub_self]
          have hge : ¬ st1.dfa_states.length < st0.dfa_states.length := by
            rw [hext_s, List.length_append]
            omega
          rw [if_neg hge]
          rfl
      · dsimp only
        rw [List.getD_append _ _ _ _ (by rw [setTrans_length]; exact hdt1),
          setTrans_getD_self _ _ _ _ hdt1, List.length_set]
        exact hdl
      · dsimp only
        intro σ hσ
        rw [List.getD_append _ _ _ _ (by rw [setTrans_length]; exact hdt1),
          setTrans_getD_self _ _ _ _ hdt1]
        rcases Nat.lt_or_ge σ c with hσc | hσc
        · have hrc2 := RowCorrectAt_append
            [nextNFAStates nfa s (alphabet.getD c .other)] (hdd σ hσc)
          rw [RowCorrectAt] at hrc2 ⊢
          by_cases ha2 : (nextNFAStates nfa s (alphabet.getD σ .other)).any id = true
          · rw [if_pos ha2] at hrc2 ⊢
            obtain ⟨j2, hj2, he2, hs2⟩ := hrc2
            refine ⟨j2, hj2, ?_, hs2⟩
            rw [getD_set_ne _ _ _ _ _ (by omega)]
            exact he2
          · rw [if_neg ha2] at hrc2 ⊢
            rw [getD_set_ne _ _ _ _ _ (by omega)]
            exact hrc2
        · have hσc' : σ = c := by omega
          subst hσc'
          rw [RowCorrectAt, if_pos hany]
          refine ⟨st1.dfa_states.length, ?_, ?_, ?_⟩
          · rw [List.length_append, List.length_singleton]
            omega
          · rw [getD_set_self _ _ _ _ (by rw [hdl]; exact hc)]
          · rw [List.getD_append_right _ _ _ _ (le_refl _), Nat.sub_self]
            rfl
      · dsimp only
        intro σ hσ
        rw [List.getD_append _ _ _ _ (by rw [setTrans_length]; exact hdt1),
          setTrans_getD_self _ _ _ _ hdt1, getD_set_ne _ _ _ _ _ (by omega)]
        exact hdt σ (by omega)
    · obtain ⟨hjlt, hjp, _⟩ := List.findIdx?_eq_some_iff_getElem.mp hfind
      have hjeq : st1.dfa_states.getD j [] =
          nextNFAStates nfa s (alphabet.getD c .other) := by
        rw [List.getD_eq_getElem _ _ hjlt]
        exact beq_iff_eq.mp hjp
      refine ⟨⟨ext1, hext_s, hext_q⟩, ?_, hla, hsl, hnd, hac, ?_, ?_, ?_, ?_⟩
      · rw [setTrans_length]
        exact hlt
      · intro i hi hne
        rw [setTrans_getD_ne _ _ _ _ _ hne]
        exact hor i hi hne
      · rw [setTrans_getD_self _ _ _ _ hdt1, List.length_set]
        exact hdl
      · intro σ hσ
        rw [setTrans_getD_self _ _ _ _ hdt1]
        rcases Nat.lt_or_ge σ c with hσc | hσc
        · have hrc := hdd σ hσc
          rw [RowCorrectAt] at hrc ⊢
          by_cases ha2 : (nextNFAStates nfa s (alphabet.getD σ .other)).any id = true
          · rw [if_pos ha2] at hrc ⊢
            obtain ⟨j2, hj2, he2, hs2⟩ := hrc
            refine ⟨j2, hj2, ?_, hs2⟩
            rw [getD_set_ne _ _ _ _ _ (by omega)]
            exact he2
          · rw [if_neg ha2] at hrc ⊢
            rw [getD_set_ne _ _ _ _ _ (by omega)]
            exact hrc
        · have hσc' : σ = c := by omega
          subst hσc'
          rw [RowCorrectAt, if_pos hany]
          refine ⟨j, hjlt, ?_, hjeq⟩
          rw [getD_set_self _ _ _ _ (by rw [hdl]; exact hc)]
      · intro σ hσ
        rw [setTrans_getD_self _ _ _ _ hdt1, getD_set_ne _ _ _ _ _ (by omega)]
        exact hdt σ (by omega)
  · rw [if_neg hany]
    refine ⟨⟨ext1, hext_s, hext_q⟩, hlt, hla, hsl, hnd, hac, hor, hdl, ?_, ?_⟩
    · intro σ hσ
      rcases Nat.lt_or_ge σ c with hσc | hσc
      · exact hdd σ hσc
      · have hσc' : σ = c := by omega
        subst hσc'
        rw [RowCorrectAt, if_neg hany]
        exact hdt σ (le_refl _)
    · intro σ hσ
      exact hdt σ (by omega)

theorem processFold_mid {alphabet : List TransitionLabel} {nfa : QueryNFA}
    {st0 : DetState} {s : List Bool} {d : Nat}
    (hd : d < st0.dfa_states.length) :
    ∀ (k c : Nat) (st1 : DetState), c + k = alphabet.length →
    DetMid alphabet nfa st0 s d c st1 →
    DetMid alphabet nfa st0 s d alphabet.length
      ((alphabet.enum.drop c).foldl
        (fun st1 symPair =>
          let next := nextNFAStates nfa s symPair.2
          if next.any id then
            match st1.dfa_states.findIdx? (· == next) with
            | some j =>
              { st1 with transitions := setTrans st1.transitions d symPair.1 j }
            | none =>
              let j := st1.dfa_states.length
              { queue := st1.queue ++ [next],
                dfa_states := st1.dfa_states ++ [next],
                transitions :=
                  setTrans st1.transitions d symPair.1 j ++
                    [List.replicate alphabet.length none],
                is_accepting := st1.is_accepting ++ [hasAcceptingState nfa next] }
          else st1)
        st1)
  | 0, c, st1, hck, hmid => by
    have hceq : c = alphabet.length := by omega
    subst hceq
    rw [List.drop_eq_nil_of_le (le_of_eq List.enum_length)]
    exact hmid
  | k + 1, c, st1, hck, hmid => by
    have hclt : c < alphabet.length := by omega
    rw [List.drop_eq_getElem_cons (by rw [List.enum_length]; exact hclt),
      List.foldl_cons, List.getElem_enum]
    refine processFold_mid hd k (c + 1) _ (by omega) ?_
    have hstep := processStep_mid hd hmid hclt
    rw [List.getD_eq_getElem alphabet .other hclt] at hstep
    exact hstep

theorem processState_det {alphabet : List TransitionLabel} {nfa : QueryNFA}
    (st : DetState) (s : List Bool)
    (hinv : DetInvP alphabet nfa st (s :: st.queue))
    (hmem : s ∈ st.dfa_states) (hnotq : s ∉ st.queue) :
    DetInv alphabet nfa (processState alphabet nfa st s) ∧
    ∃ ext, (processState alphabet nfa st s).dfa_states = st.dfa_states ++ ext ∧
      (processState alphabet nfa st s).queue = st.queue ++ ext := by
  obtain ⟨d, hfd⟩ : ∃ d, st.dfa_states.findIdx? (· == s) = some d := by
    rcases hf : st.dfa_states.findIdx? (· == s) with _ | d
    · rw [List.findIdx?_eq_none_iff] at hf
      have h2 := hf s hmem
      rw [beq_eq_false_iff_ne] at h2
      exact absurd rfl h2
    · exact ⟨d, rfl⟩
  obtain ⟨hdlt, hdp, _⟩ := List.findIdx?_eq_some_iff_getElem.mp hfd
  have hds : st.dfa_states.getD d [] = s := by
    rw [List.getD_eq_getElem _ _ hdlt]
    exact beq_iff_eq.mp hdp
  have hmid0 : DetMid alphabet nfa st s d 0 st := by
    refine ⟨⟨[], by simp, by simp⟩, hinv.len_trans, hinv.len_acc, hinv.states_len,
      hinv.nodup, hinv.acc_char, ?_, ?_, ?_, ?_⟩
    · intro i hi _
      rw [if_pos hi]
    · rw [hinv.blank_ok d hdlt (by rw [hds]; exact List.mem_cons_self _ _),
        List.length_replicate]
    · intro σ hσ
      omega
    · intro σ _
      rw [hinv.blank_ok d hdlt (by rw [hds]; exact List.mem_cons_self _ _),
        List.getD_eq_getElem?_getD, List.getElem?_replicate]
      by_cases h : σ < alphabet.length <;> simp [h]
  have hfold := processFold_mid hdlt alphabet.length 0 st (by omega) hmid0
  rw [List.drop_zero] at hfold
  have hps : processState alphabet nfa st s =
      alphabet.enum.foldl
        (fun st1 symPair =>
          let next := nextNFAStates nfa s symPair.2
          if next.any id then
            match st1.dfa_states.findIdx? (· == next) with
            | some j =>
              { st1 with transitions := setTrans st1.transitions d symPair.1 j }
            | none =>
              let j := st1.dfa_states.length
              { queue := st1.queue ++ [next],
                dfa_states := st1.dfa_states ++ [next],
                transitions :=
                  setTrans st1.transitions d symPair.1 j ++
                    [List.replicate alphabet.length none],
                is_accepting := st1.is_accepting ++ [hasAcceptingState nfa next] }
          else st1)
        st := by
    rw [processState, hfd]
    rfl
  rw [← hps] at hfold
  obtain ⟨⟨ext, hext_s, hext_q⟩, hlt, hla, hsl, hnd, hac, hor, hdl, hdd, hdt⟩ := hfold
  have hdisj : ∀ x ∈ ext, x ∉ st.dfa_states := by
    have hnd2 := hnd
    rw [hext_s, List.nodup_append] at hnd2
    intro x hx hx'
    exact hnd2.2.2 hx' hx
  refine ⟨⟨hlt, hla, hsl, hnd, ?_, ?_, ?_, ?_, hac, ?_, ?_⟩, ext, hext_s, hext_q⟩
  · intro x hx
    rw [hext_q] at hx
    rw [hext_s]
    rcases List.mem_append.mp hx with hx' | hx'
    · exact List.mem_append_left _ (hinv.queue_sub x hx')
    · exact List.mem_append_right _ hx'
  · rw [hext_q, List.nodup_append]
    refine ⟨hinv.queue_nodup, ?_, ?_⟩
    · have hnd2 := hnd
      rw [hext_s, List.nodup_append] at hnd2
      exact hnd2.2.1
    · intro x hx hx'
      exact hdisj x hx' (hinv.queue_sub x hx)
  · rw [hext_s]
    intro hcon
    rw [List.append_eq_nil] at hcon
    exact hinv.states_ne hcon.1
  · rw [hext_s,
      List.getD_append _ _ _ _ (List.length_pos.mpr hinv.states_ne)]
    exact hinv.start0
  · intro i hi
    rcases Nat.lt_or_ge i st.dfa_states.length with hi' | hi'
    · by_cases hid : i = d
      · subst hid
        refine Or.inr ?_
        have hgd : ((processState alphabet nfa st s).dfa_states.getD i []) = s := by
          rw [hext_s, List.getD_append _ _ _ _ hi']
          exact hds
        rw [hgd]
        exact fun σ hσ => hdd σ hσ
      · have hsame : ((processState alphabet nfa st s).dfa_states.getD i [])
            = st.dfa_states.getD i [] := by
          rw [hext_s, List.getD_append _ _ _ _ hi']
        rcases hinv.rows_ok i hi' with hql | hrc
        · rcases List.mem_cons.mp hql with heq | hq
          · exfalso
            refine hid ?_
            have h1 : st.dfa_states[i] = st.dfa_states[d] := by
              rw [← List.getD_eq_getElem _ ([] : List Bool) hi',
                ← List.getD_eq_getElem _ ([] : List Bool) hdlt, heq, hds]
            exact (List.Nodup.getElem_inj_iff hinv.nodup).mp h1
          · refine Or.inl ?_
            rw [hsame, hext_q]
            exact List.mem_append_left _ hq
        · refine Or.inr ?_
          rw [hsame]
          intro σ hσ
          have hrow : ((processState alphabet nfa st s).transitions.getD i [])
              = st.transitions.getD i [] := by
            rw [hor i hi hid, if_pos hi']
          rw [hrow, hext_s]
          exact RowCorrectAt_append ext (hrc σ hσ)
    · refine Or.inl ?_
      have hi2 : i - st.dfa_states.length < ext.length := by
        rw [hext_s, List.length_append] at hi
        omega
      rw [hext_s, List.getD_append_right _ _ _ _ hi', hext_q]
      refine List.mem_append_right _ ?_
      exact getD_mem _ hi2
  · intro i hi hqmem
    rcases Nat.lt_or_ge i st.dfa_states.length with hi' | hi'
    · have hsame : ((processState alphabet nfa st s).dfa_states.getD i [])
          = st.dfa_states.getD i [] := by
        rw [hext_s, List.getD_append _ _ _ _ hi']
      rw [hsame, hext_q] at hqmem
      have hmem_st : st.dfa_states.getD i [] ∈ st.dfa_states := getD_mem _ hi'
      rcases List.mem_append.mp hqmem with hq | hq
      · have hid : i ≠ d := by
          intro hcon
          subst hcon
          rw [hds] at hq
          exact hnotq hq
        have hrow : ((processState alphabet nfa st s).transitions.getD i [])
            = st.transitions.getD i [] := by
          rw [hor i hi hid, if_pos hi']
        rw [hrow]
        exact hinv.blank_ok i hi' (List.mem_cons_of_mem _ hq)
      · exact absurd hmem_st (hdisj _ hq)
    · have hid : i ≠ d := by omega
      rw [hor i hi hid, if_neg (by omega)]

theorem getD_true_lt {l : List Bool} {p : Nat} (h : l.getD p false = true) :
    p < l.length := by
  by_contra hcon
  rw [List.getD_eq_default _ _ (by omega)] at h
  exact Bool.noConfusion h

theorem all_false_of_any_false {l : List Bool} (h : l.any id = false) (p : Nat) :
    l.getD p false = false := by
  cases hb : l.getD p false with
  | false => rfl
  | true =>
    have hp := getD_true_lt hb
    rw [List.any_eq_false] at h
    have h2 := h (l.getD p false) (getD_mem _ hp)
    rw [hb] at h2
    exact absurd rfl h2

theorem edges_all_wf {nfa : QueryNFA} (hwf : NFAWf nfa) :
    ∀ p, ∀ e ∈ nfa.transitions.getD p [], e.2 < nfa.num_states := by
  intro p e he
  rcases Nat.lt_or_ge p nfa.transitions.length with hp | hp
  · exact hwf.edges_wf p hp e he
  · rw [List.getD_eq_default _ _ hp] at he
    exact absurd he (List.not_mem_nil _)

theorem detLoop_complete {alphabet : List TransitionLabel} {nfa : QueryNFA} :
    ∀ (fuel : Nat) (st : DetState), DetInv alphabet nfa st →
    2 * (2 ^ nfa.num_states - st.dfa_states.length) + st.queue.length < fuel →
    (detLoop alphabet nfa fuel st).queue = [] ∧
    DetInv alphabet nfa (detLoop alphabet nfa fuel st) ∧
    ∃ ext, (detLoop alphabet nfa fuel st).dfa_states = st.dfa_states ++ ext
  | 0, _, _, hmeas => by omega
  | fuel + 1, st, hinv, hmeas => by
    simp only [detLoop]
    cases hq : st.queue with
    | nil =>
      refine ⟨hq, hinv, [], ?_⟩
      rw [List.append_nil]
    | cons s rest =>
      obtain ⟨h1, h2, h3, h4, h5, h6, h7, h8, h9, h10, h11⟩ := hinv
      rw [hq] at h5 h6 h10 h11
      have hinv' : DetInvP alphabet nfa { st with queue := rest } (s :: rest) :=
        ⟨h1, h2, h3, h4, fun x hx => h5 x (List.mem_cons_of_mem _ hx),
          (List.nodup_cons.mp h6).2, h7, h8, h9, h10, h11⟩
      obtain ⟨hinv2, ext1, hext_s, hext_q⟩ :=
        processState_det { st with queue := rest } s hinv'
          (h5 s (List.mem_cons_self _ _)) (List.nodup_cons.mp h6).1
      have hcard := states_card_bound hinv2.states_len hinv2.nodup
      have hS2 : (processState alphabet nfa { st with queue := rest } s).dfa_states.length
          = st.dfa_states.length + ext1.length := by
        rw [hext_s, List.length_append]
      have hQ2 : (processState alphabet nfa { st with queue := rest } s).queue.length
          = rest.length + ext1.length := by
        rw [hext_q, List.length_append]
      rw [hq, List.length_cons] at hmeas
      rw [hS2] at hcard
      have hmeas2 : 2 * (2 ^ nfa.num_states -
          (processState alphabet nfa { st with queue := rest } s).dfa_states.length) +
          (processState alphabet nfa { st with queue := rest } s).queue.length < fuel := by
        rw [hS2, hQ2]
        omega
      obtain ⟨hq2, hinv3, ext2, hext2⟩ := detLoop_complete fuel _ hinv2 hmeas2
      refine ⟨hq2, hinv3, ext1 ++ ext2, ?_⟩
      rw [hext2, hext_s, List.append_assoc]

theorem detInit_detInv (alphabet : List TransitionLabel) {nfa : QueryNFA}
    (hwf : NFAWf nfa) : DetInv alphabet nfa (detInit alphabet nfa) := by
  refine ⟨rfl, rfl, ?_, List.nodup_singleton _, fun x hx => hx,
    List.nodup_singleton _, List.cons_ne_nil _ _, rfl, ?_, ?_, ?_⟩
  · intro x hx
    rw [List.mem_singleton.mp hx]
    exact startSetOf_length nfa
  · intro i hi
    have h0 : i = 0 := by
      have h1 : i < 1 := hi
      omega
    subst h0
    show nfa.is_accepting.getD nfa.start_state false =
      hasAcceptingState nfa (startSetOf nfa)
    exact (hasAcceptingState_startSet nfa hwf.start_lt).symm
  · intro i hi
    have h0 : i = 0 := by
      have h1 : i < 1 := hi
      omega
    subst h0
    exact Or.inl (List.mem_singleton.mpr rfl)
  · intro i hi _
    have h0 : i = 0 := by
      have h1 : i < 1 := hi
      omega
    subst h0
    rfl

theorem determinizeState_det {alphabet : List TransitionLabel} {nfa : QueryNFA}
    (hwf : NFAWf nfa) :
    (determinizeState alphabet nfa).queue = [] ∧
    DetInv alphabet nfa (determinizeState alphabet nfa) := by
  have hmeas : 2 * (2 ^ nfa.num_states - (detInit alphabet nfa).dfa_states.length) +
      (detInit alphabet nfa).queue.length < detFuel nfa := by
    have h1 : (detInit alphabet nfa).dfa_states.length = 1 := rfl
    have h2 : (detInit alphabet nfa).queue.length = 1 := rfl
    have h3 : 1 ≤ 2 ^ nfa.num_states := Nat.one_le_two_pow
    rw [h1, h2]
    show 2 * (2 ^ nfa.num_states - 1) + 1 < 2 * 2 ^ nfa.num_states + 1
    omega
  obtain ⟨ha, hb, -⟩ := detLoop_complete (detFuel nfa) (detInit alphabet nfa)
    (detInit_detInv alphabet hwf) hmeas
  exact ⟨ha, hb⟩

theorem iterNext_path {nfa : QueryNFA} (hwf : NFAWf nfa)
    (alphabet : List TransitionLabel) :
    ∀ (w : List Nat) (cur : List Bool), cur.length = nfa.num_states →
    ∀ r, ((iterNext alphabet nfa cur w).getD r false = true ↔
      ∃ p, cur.getD p false = true ∧ NFAPath alphabet nfa p w r)
  | [], cur, hlen, r => by
    simp only [iterNext]
    constructor
    · intro hb
      exact ⟨r, hb, NFAPath.nil r⟩
    · rintro ⟨p, hp, hpath⟩
      cases hpath
      exact hp
  | σ :: w, cur, hlen, r => by
    simp only [iterNext]
    rw [iterNext_path hwf alphabet w (nextNFAStates nfa cur (alphabet.getD σ .other))
      (nextNFAStates_length nfa cur _) r]
    constructor
    · rintro ⟨m, hm, hpath⟩
      rw [nextNFAStates_getD] at hm
      obtain ⟨-, p, -, hpbit, e, he, hcov, her⟩ := hm
      exact ⟨p, hpbit, NFAPath.cons e he hcov (her.symm ▸ hpath)⟩
    · rintro ⟨p, hpbit, hpath⟩
      cases hpath with
      | cons e he hcov hrest =>
        refine ⟨e.2, ?_, hrest⟩
        rw [nextNFAStates_getD]
        have hplt : p < nfa.num_states := by
          have hlt := getD_true_lt hpbit
          omega
        exact ⟨edges_all_wf hwf p e he, p, List.mem_range.mpr hplt, hpbit, e, he,
          hcov, rfl⟩

theorem dfaRun_sets {b : DFABuilder} {nfa : QueryNFA}
    (hq : (determinizeState b.alphabet nfa).queue = [])
    (hinv : DetInv b.alphabet nfa (determinizeState b.alphabet nfa)) :
    ∀ (w : List Nat), (∀ σ ∈ w, σ < b.alphabet.length) →
    ∀ i, i < (determinizeState b.alphabet nfa).dfa_states.length →
    (∀ f, dfaRun (determinizeNFA b nfa) i w = some f →
      f < (determinizeState b.alphabet nfa).dfa_states.length ∧
      (determinizeState b.alphabet nfa).dfa_states.getD f [] =
        iterNext b.alphabet nfa
          ((determinizeState b.alphabet nfa).dfa_states.getD i []) w) ∧
    (dfaRun (determinizeNFA b nfa) i w = none →
      ∀ r, (iterNext b.alphabet nfa
        ((determinizeState b.alphabet nfa).dfa_states.getD i []) w).getD r false =
          false)
  | [], _, i, hi => by
    constructor
    · intro f hf
      simp only [dfaRun] at hf
      cases hf
      exact ⟨hi, rfl⟩
    · intro hnone
      simp only [dfaRun] at hnone
      exact Option.noConfusion hnone
  | σ :: w, hvalid, i, hi => by
    have hs : σ < b.alphabet.length := hvalid σ (List.mem_cons_self _ _)
    have hrow : RowCorrect b.alphabet nfa (determinizeState b.alphabet nfa).dfa_states
        ((determinizeState b.alphabet nfa).transitions.getD i [])
        ((determinizeState b.alphabet nfa).dfa_states.getD i []) := by
      rcases hinv.rows_ok i hi with hl | hr
      · rw [hq] at hl
        exact absurd hl (List.not_mem_nil _)
      · exact hr
    have hrca := hrow σ hs
    rw [RowCorrectAt] at hrca
    have htrans : (determinizeNFA b nfa).transition i σ =
        ((determinizeState b.alphabet nfa).transitions.getD i []).getD σ none := by
      rw [QueryDFA.transition, if_pos ⟨hi, hs⟩]
      rfl
    by_cases hany : (nextNFAStates nfa
        ((determinizeState b.alphabet nfa).dfa_states.getD i [])
        (b.alphabet.getD σ .other)).any id = true
    · rw [if_pos hany] at hrca
      obtain ⟨j, hj, hentry, hjset⟩ := hrca
      have hstep : dfaRun (determinizeNFA b nfa) i (σ :: w) =
          dfaRun (determinizeNFA b nfa) j w := by
        simp only [dfaRun]
        rw [htrans, hentry]
      have ih := dfaRun_sets hq hinv w
        (fun τ hτ => hvalid τ (List.mem_cons_of_mem _ hτ)) j hj
      constructor
      · intro f hf
        rw [hstep] at hf
        obtain ⟨hflt, hfeq⟩ := ih.1 f hf
        refine ⟨hflt, ?_⟩
        rw [hfeq]
        simp only [iterNext]
        rw [hjset]
      · intro hnone
        rw [hstep] at hnone
        intro r
        simp only [iterNext]
        rw [← hjset]
        exact ih.2 hnone r
    · have hanyf : (nextNFAStates nfa
          ((determinizeState b.alphabet nfa).dfa_states.getD i [])
          (b.alphabet.getD σ .other)).any id = false := by
        cases h2 : (nextNFAStates nfa
            ((determinizeState b.alphabet nfa).dfa_states.getD i [])
            (b.alphabet.getD σ .other)).any id
        · rfl
        · exact absurd h2 hany
      rw [if_neg hany] at hrca
      have hstep : dfaRun (determinizeNFA b nfa) i (σ :: w) = none := by
        simp only [dfaRun]
        rw [htrans, hrca]
      constructor
      · intro f hf
        rw [hstep] at hf
        exact Option.noConfusion hf
      · intro _ r
        simp only [iterNext]
        exact iterNext_empty b.alphabet nfa w _ (all_false_of_any_false hanyf) r

/-- Claim C6.  Determinization is a sound and complete refinement of the
Glushkov NFA: on every word of in-range DFA alphabet symbol indices the
subset-construction DFA accepts iff the NFA has an accepting run under the
label-coverage rules; each constructed DFA state is accepting iff its
NFA-state set contains an accepting NFA state; and the start DFA state
(index 0) inherits acceptance from the NFA start state. -/
theorem c6_subset_construction (b : DFABuilder) (nfa : QueryNFA) (hwf : NFAWf nfa) :
    (∀ w : List Nat, (∀ σ ∈ w, σ < b.alphabet.length) →
      (dfaAccepts (determinizeNFA b nfa) w = true ↔
        nfaAcceptsCover b.alphabet nfa w)) ∧
    (∀ i, i < (determinizeNFA b nfa).num_states →
      (determinizeNFA b nfa).is_accepting.getD i false =
        hasAcceptingState nfa
          ((determinizeState b.alphabet nfa).dfa_states.getD i [])) ∧
    (determinizeNFA b nfa).is_accepting.getD 0 false =
      nfa.is_accepting.getD nfa.start_state false := by
  obtain ⟨hq, hinv⟩ : (determinizeState b.alphabet nfa).queue = [] ∧
      DetInv b.alphabet nfa (determinizeState b.alphabet nfa) :=
    determinizeState_det hwf
  have hlen0 : 0 < (determinizeState b.alphabet nfa).dfa_states.length :=
    List.length_pos.mpr hinv.states_ne
  refine ⟨?_, hinv.acc_char, ?_⟩
  · intro w hvalid
    have hsets := dfaRun_sets hq hinv w hvalid 0 hlen0
    have hbit : ((determinizeState b.alphabet nfa).dfa_states.getD 0 []).getD
        nfa.start_state false = true := by
      rw [hinv.start0]
      exact (startSetOf_getD nfa nfa.start_state).mpr ⟨rfl, hwf.start_lt⟩
    have hlen' : ((determinizeState b.alphabet nfa).dfa_states.getD 0 []).length =
        nfa.num_states := by
      rw [hinv.start0]
      exact startSetOf_length nfa
    have hstart : (determinizeNFA b nfa).start_state = 0 := rfl
    rw [dfaAccepts, hstart]
    rcases hr : dfaRun (determinizeNFA b nfa) 0 w with _ | f
    · constructor
      · intro hcon
        exact Bool.noConfusion hcon
      · rintro ⟨qf, hpath, hqf⟩
        have hallf := hsets.2 hr
        have hbt := (iterNext_path hwf b.alphabet w _ hlen' qf).mpr
          ⟨nfa.start_state, hbit, hpath⟩
        rw [hallf qf] at hbt
        exact Bool.noConfusion hbt
    · obtain ⟨hflt, hfset⟩ := hsets.1 f hr
      show (determinizeNFA b nfa).isAcceptingState f = true ↔
        nfaAcceptsCover b.alphabet nfa w
      have hacc : (determinizeNFA b nfa).isAcceptingState f =
          hasAcceptingState nfa
            ((determinizeState b.alphabet nfa).dfa_states.getD f []) := by
        rw [QueryDFA.isAcceptingState]
        have hd : (decide (f < (determinizeNFA b nfa).num_states)) = true :=
          decide_eq_true hflt
        rw [hd, Bool.true_and]
        exact hinv.acc_char f hflt
      rw [hacc, hfset]
      constructor
      · intro hh
        obtain ⟨r, -, hrbit, hracc⟩ := (hasAcceptingState_iff nfa _).mp hh
        obtain ⟨p, hpbit, hpath⟩ :=
          (iterNext_path hwf b.alphabet w _ hlen' r).mp hrbit
        obtain ⟨rfl, -⟩ := (startSetOf_getD nfa p).mp
          (by rw [hinv.start0] at hpbit; exact hpbit)
        exact ⟨r, hpath, hracc⟩
      · rintro ⟨qf, hpath, hqf⟩
        have hbt := (iterNext_path hwf b.alphabet w _ hlen' qf).mpr
          ⟨nfa.start_state, hbit, hpath⟩
        exact (hasAcceptingState_iff nfa _).mpr ⟨qf, getD_true_lt hbt, hbt, hqf⟩
  · have h1 := hinv.acc_char 0 hlen0
    rw [hinv.start0, hasAcceptingState_startSet nfa hwf.start_lt] at h1
    exact h1

/-- Witness for C6: at the compiled Glushkov NFA of the query `a` and the
fresh builder, the well-formedness hypotheses hold by computation and the
theorem applies. -/
theorem c6_subset_construction_witness :
    ∃ nfa, QueryNFA.fromQuery (Query.field "a") = some nfa ∧
      ((∀ w : List Nat, (∀ σ ∈ w, σ < DFABuilder.new.alphabet.length) →
        (dfaAccepts (determinizeNFA DFABuilder.new nfa) w = true ↔
          nfaAcceptsCover DFABuilder.new.alphabet nfa w)) ∧
      (∀ i, i < (determinizeNFA DFABuilder.new nfa).num_states →
        (determinizeNFA DFABuilder.new nfa).is_accepting.getD i false =
          hasAcceptingState nfa
            ((determinizeState DFABuilder.new.alphabet nfa).dfa_states.getD i [])) ∧
      (determinizeNFA DFABuilder.new nfa).is_accepting.getD 0 false =
        nfa.is_accepting.getD nfa.start_state false) := by
  obtain ⟨nfa, hn⟩ : ∃ n, QueryNFA.fromQuery (Query.field "a") = some n := ⟨_, rfl⟩
  refine ⟨nfa, hn, ?_⟩
  injection hn with h2
  subst h2
  exact c6_subset_construction DFABuilder.new _ ⟨by decide, by decide⟩

end Jsongrep
